import Mathlib

/-!
Verification development for the raw-to-trusted transform pipeline of this
repository.  The definitions below are a shallow embedding of the Python
sources:

* `parse_raw_body` and its JSON scanner embed `LambdaCode.py`
  (`json.JSONDecoder.raw_decode` scanning loop);
* `routeOf`, `stripNulls`, `standardize_timestamps`, `transformValues`,
  `generate_trusted_key` embed
  `smartstream-terraform/lambdas/transform/lambda_function.py`.

Python values decoded from JSON are modelled by `PyVal` (floats are omitted:
no claim below involves a float payload; Python `bool` is kept because it is
an `int` subclass and flows through the numeric timestamp branch).
Python dicts preserve insertion order, so they are modelled as association
lists whose keys are unique.
-/

/-- Model of a Python value as produced by `json.loads` (plus `None`/`bool`
for generality).  `none` is Python `None`. -/
inductive PyVal where
  | none : PyVal
  | bool : Bool → PyVal
  | int : Int → PyVal
  | str : String → PyVal
  | list : List PyVal → PyVal
  | dict : List (String × PyVal) → PyVal

abbrev Record := List (String × PyVal)

/-- Python truthiness (`bool(x)` is `False`) for the modelled values:
`None`, `False`, `0`, `""`, `[]`, `{}` are falsy. -/
def pyFalsy : PyVal → Bool
  | PyVal.none => true
  | PyVal.bool b => !b
  | PyVal.int n => n == 0
  | PyVal.str s => s == ""
  | PyVal.list xs => xs.isEmpty
  | PyVal.dict kvs => kvs.isEmpty

/-- First-occurrence association lookup; Python dict keys are unique so this
is exactly `d[k]` / `k in d`. -/
def pyLookup : List (String × PyVal) → String → Option PyVal
  | [], _ => Option.none
  | (k', v) :: rest, k => if k' = k then some v else pyLookup rest k

/-- Does `pat` occur as a prefix of `s` (plain recursive check, used to
model the Python string operations on character lists)? -/
def startsWithChars : List Char → List Char → Bool
  | [], _ => true
  | _ :: _, [] => false
  | p :: ps, c :: cs => p == c && startsWithChars ps cs

/-- Does `s` end with `suffix`? -/
def endsWithChars (suffix s : List Char) : Bool :=
  startsWithChars suffix.reverse s.reverse

/-- Python `str.lower()` restricted to ASCII (`Char.toLower` only affects
`A`-`Z`; no claim involves non-ASCII schema or table names). -/
def strLower (s : String) : String := String.mk (s.data.map Char.toLower)

/-- Python `s.startswith(pre)`. -/
def strStartsWith (s pre : String) : Bool := startsWithChars pre.data s.data

/-- Python `c in s` for a single-character needle. -/
def strContainsChar (s : String) (c : Char) : Bool := s.data.contains c

/-- Python `s.endswith(suffix)`. -/
def strEndsWith (s suffix : String) : Bool := endsWithChars suffix.data s.data

/-- Embeds `(meta.get(key) or "").lower()` from `transform_data`:
a missing or falsy field becomes `""`; a truthy string is lower-cased; a
truthy non-string raises `AttributeError` on `.lower()` (modelled as
`Option.none`, which makes the enclosing `except` skip the record). -/
def strFieldLower (mkvs : List (String × PyVal)) (k : String) : Option String :=
  let x := (pyLookup mkvs k).getD PyVal.none
  if pyFalsy x then some "" else
  match x with
  | PyVal.str s => some (strLower s)
  | _ => Option.none

/-- Embeds `record.get("metadata") or {}` followed by attribute access on the
result: a falsy metadata value is replaced by `{}`; a truthy non-dict value
raises on `.get` (modelled as `Option.none`). -/
def effectiveMeta (kvs : List (String × PyVal)) : Option (List (String × PyVal)) :=
  let mv := (pyLookup kvs "metadata").getD PyVal.none
  if pyFalsy mv then some [] else
  match mv with
  | PyVal.dict mkvs => some mkvs
  | _ => Option.none

/-- Embeds `record.get("data") or {}` from the envelope branch. -/
def effectiveData (kvs : List (String × PyVal)) : PyVal :=
  let dv := (pyLookup kvs "data").getD PyVal.none
  if pyFalsy dv then PyVal.dict [] else dv

/-- Does the decoded value have the DMS envelope shape
(`isinstance(record, dict) and "metadata" in record and "data" in record`)? -/
def isEnvelope : PyVal → Bool
  | PyVal.dict kvs => (pyLookup kvs "metadata").isSome && (pyLookup kvs "data").isSome
  | _ => false

/-- Envelope router, embedding lines 110–144 of
`transform/lambda_function.py` (the per-record `try` body up to and
including the choice of `cleaned_record`, `table_name` and `domain`).
`fs` is `FINANCE_SCHEMA_NAME`, `ftl` is `FINANCE_TABLE_LIST` (both read from
the environment in the source with defaults `"finance"` and
`["transactions", "accounts"]`).  Result `Option.none` means the record is
skipped (either by an explicit `continue` or because a raised exception is
caught by the per-record `except`); `some (domain, table_name, row)` is the
state after the routing block. -/
def routeOf (fs : String) (ftl : List String) (v : PyVal) : Option (String × String × PyVal) :=
  match v with
  | PyVal.dict kvs =>
    if (pyLookup kvs "metadata").isSome && (pyLookup kvs "data").isSome then
      match effectiveMeta kvs with
      | Option.none => Option.none
      | some mkvs =>
        match strFieldLower mkvs "table-name" with
        | Option.none => Option.none
        | some tbl =>
          match strFieldLower mkvs "schema-name" with
          | Option.none => Option.none
          | some sch =>
            if strStartsWith tbl "awsdms_" then Option.none
            else if sch = fs then
              (if ftl ≠ [] ∧ tbl ∉ ftl then Option.none
               else some ("finance", tbl, effectiveData kvs))
            else if (sch = "public" ∨ sch = "") ∧ tbl = "employees" then
              some ("employees", tbl, effectiveData kvs)
            else Option.none
    else
      -- "If a plain row ever arrives, accept it as-is"
      some ("employees", "employees", v)
  | v => some ("employees", "employees", v)

/-- Embeds the null/empty stripping comprehension:
`{k: v for k, v in cleaned_record.items() if v is not None and v != ""}`.
In Python no value other than `""` itself compares equal to `""` here
(`0 == ""` and `False == ""` are both `False`). -/
def pyIsNone : PyVal → Bool
  | PyVal.none => true
  | _ => false

def pyIsEmptyStr : PyVal → Bool
  | PyVal.str s => s == ""
  | _ => false

def stripNulls (kvs : Record) : Record :=
  kvs.filter (fun kv => !(pyIsNone kv.2) && !(pyIsEmptyStr kv.2))

/-- The fixed list of recognized timestamp field names. -/
def timestamp_fields : List String := ["timestamp", "created_at", "updated_at", "datetime", "date"]

/-- Zero-padded decimal rendering of a nonnegative integer to `w` digits. -/
def padNum (w : Nat) (n : Int) : String :=
  let s := toString n.toNat
  String.mk (List.replicate (w - s.length) '0') ++ s

/-- Embeds `datetime.fromtimestamp(n, tz=timezone.utc).isoformat().replace("+00:00", "Z")`
for an integer epoch: civil-from-days on the proleptic Gregorian calendar.
`datetime.fromtimestamp` raises (`ValueError`/`OverflowError`/`OSError`) when
the UTC datetime would fall outside years 1..9999; that is modelled by
`Option.none`.  For an in-range epoch the result is
`YYYY-MM-DDTHH:MM:SS` followed by `Z` (the `+00:00` suffix produced by
`isoformat` is replaced; microseconds are zero for an integer epoch and are
omitted by `isoformat`). -/
def isoFromEpoch (n : Int) : Option String :=
  let days := Int.fdiv n 86400
  let secs := n - days * 86400
  let z := days + 719468
  let era := Int.fdiv z 146097
  let doe := z - era * 146097
  let yoe := Int.fdiv (doe - Int.fdiv doe 1460 + Int.fdiv doe 36524 - Int.fdiv doe 146096) 365
  let y := yoe + era * 400
  let doy := doe - (365 * yoe + Int.fdiv yoe 4 - Int.fdiv yoe 100)
  let mp := Int.fdiv (5 * doy + 2) 153
  let d := doy - Int.fdiv (153 * mp + 2) 5 + 1
  let m := mp + (if mp < 10 then 3 else -9)
  let year := y + (if m ≤ 2 then 1 else 0)
  if year < 1 ∨ year > 9999 then Option.none
  else
    let hh := Int.fdiv secs 3600
    let mi := Int.fdiv (secs - hh * 3600) 60
    let ss := secs - hh * 3600 - mi * 60
    some (padNum 4 year ++ "-" ++ padNum 2 m ++ "-" ++ padNum 2 d ++ "T" ++
          padNum 2 hh ++ ":" ++ padNum 2 mi ++ ":" ++ padNum 2 ss ++ "Z")

/-- Per-field body of `standardize_timestamps` (the `try` block for one
field value).  A string containing `"T"` keeps its value when it ends in
`"Z"`/`"z"` or contains `"+"`, and otherwise gets `"Z"` appended; a numeric
value (Python `bool` is an `int` subclass, so `True`/`False` take this
branch as epochs 1/0) is rendered via `isoFromEpoch`, and a raised
conversion error leaves the field unchanged (the `except` only prints a
warning).  Any other value is left unchanged. -/
def fixTs (v : PyVal) : PyVal :=
  match v with
  | PyVal.str s =>
    if strContainsChar s 'T' then
      (if strEndsWith s "Z" || strContainsChar s '+' || strEndsWith s "z" then v
       else PyVal.str (s ++ "Z"))
    else v
  | PyVal.int n =>
    (match isoFromEpoch n with
     | some iso => PyVal.str iso
     | Option.none => v)
  | PyVal.bool b =>
    (match isoFromEpoch (if b then 1 else 0) with
     | some iso => PyVal.str iso
     | Option.none => v)
  | v => v

/-- Embeds `standardize_timestamps`: each recognized timestamp field present
in the record has its value rewritten in place (Python dict assignment to an
existing key keeps its position), all other fields are untouched. -/
def standardize_timestamps (kvs : Record) : Record :=
  kvs.map (fun kv => if kv.1 ∈ timestamp_fields then (kv.1, fixTs kv.2) else kv)

/-- The cleaning stage applied to the routed row (lines 146–153 of
`transform_data`): a non-dict row is skipped (`isinstance` check), null and
empty-string fields are removed, an empty result is skipped, and timestamps
are standardized. -/
def cleanRow (row : PyVal) : Option Record :=
  match row with
  | PyVal.dict kvs =>
    let c := stripNulls kvs
    if c.isEmpty then Option.none else some (standardize_timestamps c)
  | _ => Option.none

/-- Four-digit lowercase hex, as Python emits in `\uXXXX` escapes. -/
def padHex4 (n : Nat) : String :=
  String.mk [Nat.digitChar (n / 4096 % 16), Nat.digitChar (n / 256 % 16),
             Nat.digitChar (n / 16 % 16), Nat.digitChar (n % 16)]

/-- JSON string escaping of `json.dumps` with the default
`ensure_ascii=True`: `"` and `\` are escaped, control characters use the
short escapes or `\u00XX`, other ASCII is kept, and every non-ASCII
character is emitted as `\uXXXX` (a surrogate pair beyond the BMP). -/
def encChar (c : Char) : String :=
  if c = '"' then "\\\""
  else if c = '\\' then "\\\\"
  else if c = '\n' then "\\n"
  else if c = '\r' then "\\r"
  else if c = '\t' then "\\t"
  else if c = '\x08' then "\\b"
  else if c = '\x0c' then "\\f"
  else if c.toNat < 0x20 then "\\u" ++ padHex4 c.toNat
  else if c.toNat < 0x7f then String.mk [c]
  else if c.toNat < 0x10000 then "\\u" ++ padHex4 c.toNat
  else
    "\\u" ++ padHex4 (0xD800 + (c.toNat - 0x10000) / 0x400) ++
    "\\u" ++ padHex4 (0xDC00 + (c.toNat - 0x10000) % 0x400)

def encodeJsonString (s : String) : String :=
  "\"" ++ String.join (s.data.map encChar) ++ "\""

/-- Insertion sort by key of `(key, rendered value)` pairs, embedding
`sorted(dct.items())` as performed by the `json.dumps(..., sort_keys=True)`
encoder.  Python compares the `(key, value)` tuples, but dict keys are
unique so the comparison is decided by the keys (code-point order, matching
`String.le`); sorting the pairs after rendering the values therefore yields
the same item order the encoder uses. -/
def insertByKey (p : String × String) : List (String × String) → List (String × String)
  | [] => [p]
  | q :: rest => if p.1 ≤ q.1 then p :: q :: rest else q :: insertByKey p rest

def sortByKey : List (String × String) → List (String × String)
  | [] => []
  | p :: rest => insertByKey p (sortByKey rest)

/-- Comma-join with the default `json.dumps` item separator `", "`. -/
def joinComma : List String → String
  | [] => ""
  | [x] => x
  | x :: xs => x ++ ", " ++ joinComma xs

/-- Embeds `json.dumps(value, sort_keys=True)` with the default separators
`", "` and `": "`: every nested dict is serialized with its items sorted by
key. -/
def dumpVal : PyVal → String
  | PyVal.none => "null"
  | PyVal.bool b => if b then "true" else "false"
  | PyVal.int n => toString n
  | PyVal.str s => encodeJsonString s
  | PyVal.list xs => "[" ++ joinComma (xs.attach.map (fun x => dumpVal x.1)) ++ "]"
  | PyVal.dict kvs =>
    "\x7b" ++
    joinComma ((sortByKey (kvs.attach.map (fun kv => (kv.1.1, dumpVal kv.1.2)))).map
      (fun p => encodeJsonString p.1 ++ ": " ++ p.2)) ++
    "\x7d"
decreasing_by
  · have h := List.sizeOf_lt_of_mem x.2
    simp only [PyVal.list.sizeOf_spec]
    omega
  · obtain ⟨⟨a, b⟩, hm⟩ := kv
    have h := List.sizeOf_lt_of_mem hm
    simp only [Prod.mk.sizeOf_spec] at h
    simp only [PyVal.dict.sizeOf_spec]
    simp
    omega

/-- The serialization the dedup hash is computed over:
`json.dumps(cleaned_record, sort_keys=True)`. -/
def jsonDumps (r : Record) : String := dumpVal (PyVal.dict r)

/-- Per-route mutable state of `transform_data`: the source keeps two dicts
`grouped_records` and `grouped_hashes` with identical keys; they are fused
here into one insertion-ordered association from `route_key` to
`(records, hashes)`. -/
abbrev GroupSt := List (String × (List Record × List String))

/-- Embeds lines 155–166 of `transform_data` for one surviving record:
initialize the route group if absent, then drop the record when its content
hash was already seen for this route, otherwise append record and hash. -/
def updateGroup : GroupSt → String → Record → String → GroupSt
  | [], rk, rec, h => [(rk, ([rec], [h]))]
  | (k, (rs, hs)) :: rest, rk, rec, h =>
    if k = rk then
      (if h ∈ hs then (k, (rs, hs)) :: rest
       else (k, (rs ++ [rec], hs ++ [h])) :: rest)
    else (k, (rs, hs)) :: updateGroup rest rk rec h

/-- Embeds `route_key = f"{domain}/{table_name or 'unknown'}"`. -/
def routeKeyOf (domain tbl : String) : String :=
  domain ++ "/" ++ (if tbl = "" then "unknown" else tbl)

/-- Routing plus cleaning for one decoded value: the route key and the
cleaned record that reach the dedup step, or `Option.none` when the value is
dropped anywhere on the way. -/
def cleanedOf (fs : String) (ftl : List String) (v : PyVal) : Option (String × Record) :=
  match routeOf fs ftl v with
  | Option.none => Option.none
  | some (domain, tbl, row) =>
    match cleanRow row with
    | Option.none => Option.none
    | some rec => some (routeKeyOf domain tbl, rec)

/-- One iteration of the `transform_data` loop for an already-decoded value
(`record = json.loads(line)` succeeded).  `md5h` stands for
`hashlib.md5(...).hexdigest()`, an arbitrary deterministic function of the
serialized record. -/
def processValue (fs : String) (ftl : List String) (md5h : String → String)
    (st : GroupSt) (v : PyVal) : GroupSt :=
  match cleanedOf fs ftl v with
  | Option.none => st
  | some (rk, rec) => updateGroup st rk rec (md5h (jsonDumps rec))

/-- Embeds the record-processing loop of `transform_data` (lines 104–166),
taking as input the sequence of values successfully decoded from the
newline-split raw body (lines whose `json.loads` raises are skipped by the
`except` and contribute nothing). -/
def transformValues (fs : String) (ftl : List String) (md5h : String → String)
    (vs : List PyVal) : GroupSt :=
  vs.foldl (processValue fs ftl md5h) []

/-- Default `FINANCE_SCHEMA_NAME` (env var absent). -/
def FINANCE_SCHEMA_NAME : String := "finance"

/-- Default `FINANCE_TABLE_LIST` (env var absent): `"transactions,accounts"`
split on commas, stripped, lower-cased, empties removed. -/
def FINANCE_TABLE_LIST : List String := ["transactions", "accounts"]

/-- Embeds Python `s.replace(pat, "", 1)`: remove the first (leftmost)
occurrence of `pat`, leave `s` unchanged when `pat` does not occur. -/
def replaceFirstWithEmpty (pat : List Char) : List Char → List Char
  | [] => []
  | c :: cs =>
    if startsWithChars pat (c :: cs) then (c :: cs).drop pat.length
    else c :: replaceFirstWithEmpty pat cs

/-- The `key_parts` computation of `generate_trusted_key`:
`key_parts = raw_key.replace("raw/", "", 1)`, strip a trailing `".gz"`,
force a trailing `".json"`. -/
def keyPartsOf (raw_key : List Char) : List Char :=
  let kp := replaceFirstWithEmpty "raw/".data raw_key
  let kp := if endsWithChars ".gz".data kp then kp.dropLast.dropLast.dropLast else kp
  if endsWithChars ".json".data kp then kp else kp ++ ".json".data

/-- Embeds `generate_trusted_key` (lines 224–241 of
`transform/lambda_function.py`), on character lists: the result is
`trusted/<route_key>/<key_parts>`. -/
def generate_trusted_key (raw_key route_key : List Char) : List Char :=
  "trusted/".data ++ route_key ++ "/".data ++ keyPartsOf raw_key

/-!
JSON scanner model.  `LambdaCode.py`'s `parse_raw_body` drives
`json.JSONDecoder().raw_decode` over the payload; the decoder is embedded
below on character lists, following the CPython `json.scanner`/`json.decoder`
semantics in strict mode: strings with the standard escapes (including
surrogate-pair `\uXXXX` combination), objects/arrays with `[ \t\n\r]`
whitespace between tokens, the `true`/`false`/`null` literals, and numbers
matching `(-?(0|[1-9][0-9]*))(\.[0-9]+)?([eE][-+]?[0-9]+)?` with maximal
munch.  The scanner's non-standard constant branch is also modelled: after
a failed number match it accepts the fixed prefixes `NaN`, `Infinity` and
`-Infinity` (handed to the default `parse_constant`, which maps them to
`float` values), so decode failure in the model coincides with
`JSONDecodeError` in the program.  Exotic behaviours of `int(s, 16)` inside
`\u` escapes are not JSON and are not modelled; a lone surrogate escape is
mapped through `Char.ofNat` (Python keeps a surrogate code unit, which
`Char` cannot represent — no claim involves one).  A decoded number or
constant is kept as its matched lexeme (Python converts it with
`int`/`float`; no claim compares numbers across distinct lexemes). -/

/-- One decoded JSON value. -/
inductive JValue where
  | null : JValue
  | bool : Bool → JValue
  | num : List Char → JValue
  | str : List Char → JValue
  | arr : List JValue → JValue
  | obj : List (List Char × JValue) → JValue

/-- JSON inter-token whitespace, the decoder's `[ \t\n\r]*` skip set. -/
def jsonWs (c : Char) : Bool := c == ' ' || c == '\t' || c == '\n' || c == '\r'

def skipWs (s : List Char) : List Char := s.dropWhile jsonWs

/-- Python `str.isspace` restricted to ASCII, as used by the scanning loop
in `parse_raw_body` and by `str.strip()` (the Unicode space characters are
not modelled; no claim involves them). -/
def pyIsSpace (c : Char) : Bool :=
  c == ' ' || c == '\t' || c == '\n' || c == '\r' || c == '\x0b' || c == '\x0c'

def hexDigitVal (c : Char) : Option Nat :=
  if '0' ≤ c ∧ c ≤ '9' then some (c.toNat - '0'.toNat)
  else if 'a' ≤ c ∧ c ≤ 'f' then some (c.toNat - 'a'.toNat + 10)
  else if 'A' ≤ c ∧ c ≤ 'F' then some (c.toNat - 'A'.toNat + 10)
  else Option.none

def hex4 : List Char → Option (Nat × List Char)
  | a :: b :: c :: d :: r =>
    (match hexDigitVal a, hexDigitVal b, hexDigitVal c, hexDigitVal d with
     | some x, some y, some z, some w => some (x * 4096 + y * 256 + z * 16 + w, r)
     | _, _, _, _ => Option.none)
  | _ => Option.none

/-- The two-character backslash escapes of JSON strings. -/
def escMap : Char → Option Char
  | '"' => some '"'
  | '\\' => some '\\'
  | '/' => some '/'
  | 'b' => some '\x08'
  | 'f' => some '\x0c'
  | 'n' => some '\n'
  | 'r' => some '\r'
  | 't' => some '\t'
  | _ => Option.none

/-- Integer part of a JSON number: `0` or a nonzero digit followed by
maximal digits (the leading-zero rule of the number grammar). -/
def parseIntPart : List Char → Option (List Char × List Char)
  | [] => Option.none
  | c :: r =>
    if c = '0' then some (['0'], r)
    else if c.isDigit then some (c :: r.takeWhile Char.isDigit, r.dropWhile Char.isDigit)
    else Option.none

/-- Optional fraction part `\.[0-9]+` with one-character lookahead:
a `.` not followed by a digit is not consumed. -/
def parseFracPart (s : List Char) : List Char × List Char :=
  match s with
  | [] => ([], [])
  | c :: r =>
    if c = '.' then
      (if (r.takeWhile Char.isDigit).isEmpty then ([], c :: r)
       else (c :: r.takeWhile Char.isDigit, r.dropWhile Char.isDigit))
    else ([], c :: r)

/-- Optional exponent part `[eE][-+]?[0-9]+`; an `e`/`E` whose (optionally
signed) digit run is empty is not consumed. -/
def parseExpPart (s : List Char) : List Char × List Char :=
  match s with
  | [] => ([], [])
  | c :: r =>
    if c = 'e' ∨ c = 'E' then
      (match r with
       | [] => ([], [c])
       | s1 :: r2 =>
         if s1 = '+' ∨ s1 = '-' then
           (if (r2.takeWhile Char.isDigit).isEmpty then ([], c :: s1 :: r2)
            else (c :: s1 :: r2.takeWhile Char.isDigit, r2.dropWhile Char.isDigit))
         else
           (if (r.takeWhile Char.isDigit).isEmpty then ([], c :: r)
            else (c :: r.takeWhile Char.isDigit, r.dropWhile Char.isDigit)))
    else ([], c :: r)

/-- The number match of the scanner (`NUMBER_RE.match`): returns the matched
lexeme and the rest of the input. -/
def parseNum (s : List Char) : Option (List Char × List Char) :=
  match s with
  | [] => Option.none
  | c :: r =>
    if c = '-' then
      match parseIntPart r with
      | Option.none => Option.none
      | some (ip, r1) =>
        let fr := parseFracPart r1
        let ex := parseExpPart fr.2
        some ('-' :: (ip ++ fr.1 ++ ex.1), ex.2)
    else
      match parseIntPart (c :: r) with
      | Option.none => Option.none
      | some (ip, r1) =>
        let fr := parseFracPart r1
        let ex := parseExpPart fr.2
        some (ip ++ fr.1 ++ ex.1, ex.2)

/-- Building a decoded object: Python's decoder hands the member pairs to
`dict(...)`, so a repeated key overwrites the earlier value in place while a
new key is appended. -/
def objInsert : List (List Char × JValue) → List Char → JValue → List (List Char × JValue)
  | [], k, v => [(k, v)]
  | (k', v') :: rest, k, v =>
    if k' = k then (k', v) :: rest else (k', v') :: objInsert rest k v

def objOfPairs (ps : List (List Char × JValue)) : List (List Char × JValue) :=
  ps.foldl (fun acc kv => objInsert acc kv.1 kv.2) []

/-- The `\uXXXX` escape handler of `py_scanstring`, positioned after the
`\u`: reads four hex digits; a high surrogate followed by another `\uXXXX`
low surrogate is combined into one code point, otherwise the lone value is
kept (Python retains a lone surrogate code unit, which `Char` cannot
represent; `Char.ofNat` stands in for it — no claim involves one). -/
def parseU (r2 : List Char) : Option (Char × List Char) :=
  match hex4 r2 with
  | Option.none => Option.none
  | some (n, r3) =>
    if 0xD800 ≤ n ∧ n < 0xDC00 then
      (if startsWithChars ['\\', 'u'] r3 then
        match hex4 (r3.drop 2) with
        | some (m, r5) =>
          if 0xDC00 ≤ m ∧ m < 0xE000 then
            some (Char.ofNat (0x10000 + (n - 0xD800) * 0x400 + (m - 0xDC00)), r5)
          else some (Char.ofNat n, r3)
        | Option.none => some (Char.ofNat n, r3)
      else some (Char.ofNat n, r3))
    else some (Char.ofNat n, r3)

mutual
/-- String scanner (`py_scanstring`, strict mode), positioned just after the
opening quote; returns the decoded content and the input after the closing
quote.  The fuel argument only bounds recursion depth; each recursive call
consumes at least one character, so `length + 1` fuel always suffices. -/
def parseStrF : Nat → List Char → Option (List Char × List Char)
  | 0, _ => Option.none
  | f+1, s =>
    match s with
    | [] => Option.none
    | c :: r =>
      if c = '"' then some ([], r)
      else if c = '\\' then
        (match r with
         | [] => Option.none
         | e :: r2 =>
           if e = 'u' then
             match parseU r2 with
             | Option.none => Option.none
             | some (ch, r3) => (parseStrF f r3).map (fun p => (ch :: p.1, p.2))
           else
             match escMap e with
             | some c2 => (parseStrF f r2).map (fun p => (c2 :: p.1, p.2))
             | Option.none => Option.none)
      else if c.toNat < 0x20 then Option.none
      else (parseStrF f r).map (fun p => (c :: p.1, p.2))

/-- One JSON value at the given position (`scan_once`): dispatch on the
first character; no leading whitespace is skipped (matching `raw_decode`).
When the number match fails, the scanner still accepts the constants
`NaN`, `Infinity` and `-Infinity` (CPython's documented extension, enabled
by the default `parse_constant`); the decoded constant is kept as its
lexeme, as numbers are. -/
def jsonValF : Nat → List Char → Option (JValue × List Char)
  | 0, _ => Option.none
  | f+1, s =>
    match s with
    | [] => Option.none
    | c :: r =>
      if c = '"' then (parseStrF f r).map (fun p => (JValue.str p.1, p.2))
      else if c = '{' then
        (match skipWs r with
         | [] => Option.none
         | c2 :: r2 =>
           if c2 = '}' then some (JValue.obj [], r2)
           else (jsonMembersF f (c2 :: r2)).map (fun p => (JValue.obj (objOfPairs p.1), p.2)))
      else if c = '[' then
        (match skipWs r with
         | [] => Option.none
         | c2 :: r2 =>
           if c2 = ']' then some (JValue.arr [], r2)
           else
             (jsonValF f (c2 :: r2)).bind (fun q =>
               (jsonElemsRestF f q.2).map (fun p => (JValue.arr (q.1 :: p.1), p.2))))
      else if c = 't' then
        (if startsWithChars ['r', 'u', 'e'] r then some (JValue.bool true, r.drop 3)
         else Option.none)
      else if c = 'f' then
        (if startsWithChars ['a', 'l', 's', 'e'] r then some (JValue.bool false, r.drop 4)
         else Option.none)
      else if c = 'n' then
        (if startsWithChars ['u', 'l', 'l'] r then some (JValue.null, r.drop 3)
         else Option.none)
      else
        match parseNum (c :: r) with
        | some p => some (JValue.num p.1, p.2)
        | Option.none =>
          if c = 'N' then
            (if startsWithChars ['a', 'N'] r then
              some (JValue.num ['N', 'a', 'N'], r.drop 2)
            else Option.none)
          else if c = 'I' then
            (if startsWithChars ['n', 'f', 'i', 'n', 'i', 't', 'y'] r then
              some (JValue.num ['I', 'n', 'f', 'i', 'n', 'i', 't', 'y'], r.drop 7)
            else Option.none)
          else if c = '-' then
            (if startsWithChars ['I', 'n', 'f', 'i', 'n', 'i', 't', 'y'] r then
              some (JValue.num ['-', 'I', 'n', 'f', 'i', 'n', 'i', 't', 'y'], r.drop 8)
            else Option.none)
          else Option.none

/-- Object members (`parse_object` loop), positioned at the opening quote of
the next key; returns the member pairs in source order and the input after
the closing brace. -/
def jsonMembersF : Nat → List Char → Option (List (List Char × JValue) × List Char)
  | 0, _ => Option.none
  | f+1, s =>
    match s with
    | [] => Option.none
    | c :: r =>
      if c = '"' then
        (parseStrF f r).bind (fun kp =>
          match skipWs kp.2 with
          | [] => Option.none
          | c2 :: r2 =>
            if c2 = ':' then
              (jsonValF f (skipWs r2)).bind (fun vp =>
                match skipWs vp.2 with
                | [] => Option.none
                | c3 :: r4 =>
                  if c3 = '}' then some ([(kp.1, vp.1)], r4)
                  else if c3 = ',' then
                    (jsonMembersF f (skipWs r4)).map (fun p => ((kp.1, vp.1) :: p.1, p.2))
                  else Option.none)
            else Option.none)
      else Option.none

/-- Array elements after the first one (`parse_array` loop): expects `]` or
`, value`, repeatedly. -/
def jsonElemsRestF : Nat → List Char → Option (List JValue × List Char)
  | 0, _ => Option.none
  | f+1, s =>
    match skipWs s with
    | [] => Option.none
    | c :: r =>
      if c = ']' then some ([], r)
      else if c = ',' then
        (jsonValF f (skipWs r)).bind (fun vp =>
          (jsonElemsRestF f vp.2).map (fun p => (vp.1 :: p.1, p.2)))
      else Option.none
end

/-- `decoder.raw_decode(body, idx)` on the suffix starting at `idx`:
`length + 1` fuel is always sufficient because every recursive call of the
scanner family consumes at least one input character per fuel step. -/
def rawDecode (s : List Char) : Option (JValue × List Char) := jsonValF (s.length + 1) s

/-- The scanning loop of `parse_raw_body` (`while idx < length: skip
whitespace; raw_decode; append; continue from the reported end; on
`JSONDecodeError` break`).  The loop is expressed on the remaining suffix;
fuel `length + 1` cannot run out because every decoded value is nonempty. -/
def scanLoop : Nat → List Char → List JValue
  | 0, _ => []
  | f+1, s =>
    match s.dropWhile pyIsSpace with
    | [] => []
    | c :: cs =>
      match rawDecode (c :: cs) with
      | Option.none => []
      | some (v, rest) => v :: scanLoop f rest

/-- Python `str.strip()` (ASCII whitespace). -/
def pyStrip (s : List Char) : List Char :=
  ((s.dropWhile pyIsSpace).reverse.dropWhile pyIsSpace).reverse

/-- Embeds `parse_raw_body` from `LambdaCode.py`: strip the body, return
`[]` when empty, otherwise run the scanning loop.  The function is total —
a malformed tail ends the scan and returns the values decoded so far, which
models the `except json.JSONDecodeError: break` (no error ever reaches the
caller). -/
def parse_raw_body (s : List Char) : List JValue :=
  let b := pyStrip s
  if b.isEmpty then [] else scanLoop (b.length + 1) b

/-- First-occurrence lookup in the grouped state. -/
def groupGet : GroupSt → String → Option (List Record × List String)
  | [], _ => Option.none
  | (k, g) :: rest, rk => if k = rk then some g else groupGet rest rk

/-- The sub-sequence of cleaned records destined for route `rk`, in input
order (the sequence the per-route deduplication acts on). -/
def routedRecords (fs : String) (ftl : List String) (rk : String) (vs : List PyVal) : List Record :=
  vs.filterMap (fun v =>
    match cleanedOf fs ftl v with
    | some (rk', rec) => if rk' = rk then some rec else Option.none
    | Option.none => Option.none)

/-- Specification form of the per-route dedup: keep a record exactly when
its hash has not been seen earlier in the sequence. -/
def keepFirstsAux (h : Record → String) : List String → List Record → List Record
  | _, [] => []
  | seen, r :: rs =>
    if h r ∈ seen then keepFirstsAux h seen rs
    else r :: keepFirstsAux h (seen ++ [h r]) rs

/-- Retain only the first record observed for each distinct hash. -/
def dedupFirstOcc (h : Record → String) (rs : List Record) : List Record :=
  keepFirstsAux h [] rs

/-- One dedup step on a single route's `(records, hashes)` pair, exactly the
body of lines 160–166 of `transform_data`. -/
def dedupStep (h : Record → String) (p : List Record × List String) (r : Record) :
    List Record × List String :=
  if h r ∈ p.2 then p else (p.1 ++ [r], p.2 ++ [h r])

def dedupFold (h : Record → String) (rs : List Record) : List Record × List String :=
  rs.foldl (dedupStep h) ([], [])

/-- A chunk of text that decodes as one complete JSON value
(the decoder consumes it entirely). -/
def ValChunk (c : List Char) (v : JValue) : Prop := rawDecode c = some (v, [])

/-- A chunk of text that is one complete well-formed JSON object: it starts
with `{`, ends with `}`, and the decoder consumes it entirely. -/
def ObjChunk (c : List Char) (v : JValue) : Prop :=
  c.head? = some '{' ∧ c.getLast? = some '}' ∧ rawDecode c = some (v, [])

def wsOnly (w : List Char) : Bool := w.all pyIsSpace

/-- Concatenation of `(chunk, trailing whitespace)` pieces. -/
def joinPieces (ps : List ((List Char × JValue) × List Char)) : List Char :=
  (ps.map (fun p => p.1.1 ++ p.2)).flatten

/-- No character that could extend or reopen a number literal stands at the
head of `u` (digits, `.`, `e`, `E`, `+`, `-`): appending such a `u` to a
fully matched number lexeme cannot change the match. -/
def noNumExt (u : List Char) : Prop :=
  ∀ c cs, u = c :: cs →
    (c.isDigit = false ∧ c ≠ '.' ∧ c ≠ 'e' ∧ c ≠ 'E' ∧ c ≠ '+' ∧ c ≠ '-')

/-- The remainder left by a successful scan starts with a character that
cannot reopen a number match (every structural delimiter and every JSON
whitespace character qualifies). -/
def SafeRest (r : List Char) : Prop :=
  ∃ c cs, r = c :: cs ∧ c ≠ '.' ∧ c ≠ 'e' ∧ c ≠ 'E'

/-- The input begins with a character that dispatches `scan_once` to a
non-number branch. -/
def NonNumHead (s : List Char) : Prop :=
  ∃ c cs, s = c :: cs ∧ (c = '"' ∨ c = '{' ∨ c = '[' ∨ c = 't' ∨ c = 'f' ∨ c = 'n')

/-- Sufficient condition under which appending `t` to the input cannot
change a successful `scan_once`: either the value is not a number, or the
scan left a remainder whose head seals the number, or the scan consumed the
whole input and `t` itself cannot extend a number. -/
def ExtOk (s r t : List Char) : Prop :=
  NonNumHead s ∨ SafeRest r ∨ (r = [] ∧ noNumExt t)

/-!
Theorems.  Each claim `Cn` of the specification audit gets exactly one
theorem (plus, when needed, a closed witness or counterexample); the
supporting lemmas precede them.
-/

theorem processValue_skip {fs : String} {ftl : List String} {md5h : String → String}
    {st : GroupSt} {v : PyVal} (h : cleanedOf fs ftl v = Option.none) :
    processValue fs ftl md5h st v = st := by
  simp [processValue, h]

theorem transformValues_skip_middle (fs : String) (ftl : List String) (md5h : String → String)
    (pre post : List PyVal) {v : PyVal} (h : cleanedOf fs ftl v = Option.none) :
    transformValues fs ftl md5h (pre ++ v :: post) = transformValues fs ftl md5h (pre ++ post) := by
  simp only [transformValues, List.foldl_append, List.foldl_cons, processValue_skip h]

/-- C4: a decoded envelope whose lower-cased metadata table-name starts with
the reserved control-table prefix `awsdms_` is dropped by the router no
matter what its schema-name resolves to, and inserting such a value anywhere
in the input changes no route group of the transform output. -/
theorem C4_control_records_dropped
    (fs : String) (ftl : List String) (md5h : String → String)
    (kvs mkvs : List (String × PyVal)) (tbl : String)
    (hEnv : isEnvelope (PyVal.dict kvs) = true)
    (hm : effectiveMeta kvs = some mkvs)
    (ht : strFieldLower mkvs "table-name" = some tbl)
    (hpre : strStartsWith tbl "awsdms_" = true)
    (pre post : List PyVal) :
    routeOf fs ftl (PyVal.dict kvs) = Option.none ∧
    transformValues fs ftl md5h (pre ++ PyVal.dict kvs :: post) =
      transformValues fs ftl md5h (pre ++ post) := by
  have hroute : routeOf fs ftl (PyVal.dict kvs) = Option.none := by
    simp only [isEnvelope] at hEnv
    simp only [routeOf, hEnv, if_true, hm, ht]
    cases hs : strFieldLower mkvs "schema-name" with
    | none => rfl
    | some sch => simp [hpre]
  refine ⟨hroute, ?_⟩
  exact transformValues_skip_middle fs ftl md5h pre post (by simp [cleanedOf, hroute])

/-- C5: for an envelope on the configured finance schema, a table-name in
the (nonempty) finance allow-list routes to `(finance, table)`, a table-name
outside the list is dropped, and an envelope matching neither the finance
rule nor the employees rule is dropped rather than routed to any default. -/
theorem C5_finance_allowlist
    (fs : String) (ftl : List String) (kvs mkvs : List (String × PyVal)) (tbl sch : String)
    (hEnv : isEnvelope (PyVal.dict kvs) = true)
    (hm : effectiveMeta kvs = some mkvs)
    (ht : strFieldLower mkvs "table-name" = some tbl)
    (hs : strFieldLower mkvs "schema-name" = some sch)
    (hdms : strStartsWith tbl "awsdms_" = false) :
    (sch = fs → tbl ∈ ftl →
      routeOf fs ftl (PyVal.dict kvs) = some ("finance", tbl, effectiveData kvs)) ∧
    (sch = fs → tbl ∉ ftl → ftl ≠ [] →
      routeOf fs ftl (PyVal.dict kvs) = Option.none) ∧
    (sch ≠ fs → ¬((sch = "public" ∨ sch = "") ∧ tbl = "employees") →
      routeOf fs ftl (PyVal.dict kvs) = Option.none) := by
  simp only [isEnvelope] at hEnv
  refine ⟨?_, ?_, ?_⟩
  · intro h1 h2
    simp [routeOf, hEnv, hm, ht, hs, hdms, h1, h2]
  · intro h1 h2 h3
    simp [routeOf, hEnv, hm, ht, hs, hdms, h1, h2, h3]
  · intro h1 h2
    simp [routeOf, hEnv, hm, ht, hs, hdms, h1, h2]

/-- C6: a decoded mapping without the envelope shape is accepted as-is under
the legacy `employees` route, for every configuration of the schema and
allow-list (it never meets the schema/table filter). -/
theorem C6_bare_row_default_route (fs : String) (ftl : List String)
    (kvs : List (String × PyVal))
    (h : isEnvelope (PyVal.dict kvs) = false) :
    routeOf fs ftl (PyVal.dict kvs) = some ("employees", "employees", PyVal.dict kvs) := by
  simp only [isEnvelope] at h
  simp [routeOf, h]

theorem pyIsNone_eq_false {v : PyVal} : pyIsNone v = false ↔ v ≠ PyVal.none := by
  cases v <;> simp [pyIsNone]

theorem pyIsEmptyStr_eq_false {v : PyVal} : pyIsEmptyStr v = false ↔ v ≠ PyVal.str "" := by
  cases v <;> simp [pyIsEmptyStr]

theorem stripNulls_mem (kvs : Record) (k : String) (v : PyVal) :
    (k, v) ∈ stripNulls kvs ↔ ((k, v) ∈ kvs ∧ v ≠ PyVal.none ∧ v ≠ PyVal.str "") := by
  simp only [stripNulls, List.mem_filter, Bool.and_eq_true, Bool.not_eq_true']
  rw [pyIsNone_eq_false, pyIsEmptyStr_eq_false]

theorem cleanedOf_rec_ne_nil {fs : String} {ftl : List String} {v : PyVal}
    {rk : String} {rec : Record} (h : cleanedOf fs ftl v = some (rk, rec)) : rec ≠ [] := by
  unfold cleanedOf at h
  cases hr : routeOf fs ftl v with
  | none => rw [hr] at h; exact absurd h (by simp)
  | some dtr =>
    rw [hr] at h
    obtain ⟨d, t, row⟩ := dtr
    cases row with
    | dict kvs =>
      simp only [cleanRow] at h
      by_cases hne : (stripNulls kvs).isEmpty = true
      · simp [hne] at h
      · rw [if_neg hne] at h
        simp only [Option.some.injEq, Prod.mk.injEq] at h
        obtain ⟨-, hrec⟩ := h
        intro hnil
        rw [hnil] at hrec
        simp only [standardize_timestamps, List.map_eq_nil_iff] at hrec
        simp [hrec] at hne
    | none => simp [cleanRow] at h
    | bool b => simp [cleanRow] at h
    | int n => simp [cleanRow] at h
    | str s => simp [cleanRow] at h
    | list xs => simp [cleanRow] at h

theorem mem_updateGroup {st : GroupSt} {rk' rk : String} {rec' r : Record} {h' : String}
    {g : List Record × List String}
    (hg : groupGet (updateGroup st rk' rec' h') rk = some g) (hr : r ∈ g.1) :
    (∃ g0, groupGet st rk = some g0 ∧ r ∈ g0.1) ∨ r = rec' := by
  induction st with
  | nil =>
    simp only [updateGroup, groupGet] at hg
    by_cases hk : rk' = rk
    · simp only [hk, if_true] at hg
      obtain rfl : ([rec'], [h']) = g := by simpa using hg
      simp at hr
      exact Or.inr hr
    · simp [hk] at hg
  | cons hd rest ih =>
    obtain ⟨k, rs, hs⟩ := hd
    simp only [updateGroup] at hg
    by_cases hk : k = rk'
    · rw [if_pos hk] at hg
      by_cases hh : h' ∈ hs
      · rw [if_pos hh] at hg
        simp only [groupGet] at hg ⊢
        by_cases hk2 : k = rk
        · rw [if_pos hk2] at hg ⊢
          exact Or.inl ⟨g, hg, hr⟩
        · rw [if_neg hk2] at hg ⊢
          exact Or.inl ⟨g, hg, hr⟩
      · rw [if_neg hh] at hg
        simp only [groupGet] at hg ⊢
        by_cases hk2 : k = rk
        · rw [if_pos hk2] at hg ⊢
          obtain rfl : (rs ++ [rec'], hs ++ [h']) = g := by simpa using hg
          simp only [List.mem_append, List.mem_singleton] at hr
          rcases hr with hr | hr
          · exact Or.inl ⟨(rs, hs), rfl, hr⟩
          · exact Or.inr hr
        · rw [if_neg hk2] at hg ⊢
          exact Or.inl ⟨g, hg, hr⟩
    · rw [if_neg hk] at hg
      simp only [groupGet] at hg ⊢
      by_cases hk2 : k = rk
      · rw [if_pos hk2] at hg ⊢
        exact Or.inl ⟨g, by simpa using hg, hr⟩
      · rw [if_neg hk2] at hg ⊢
        exact ih hg

theorem transformValues_records_ne_nil_aux (fs : String) (ftl : List String)
    (md5h : String → String) :
    ∀ (vs : List PyVal) (st : GroupSt),
      (∀ rk g, groupGet st rk = some g → ∀ r ∈ g.1, r ≠ []) →
      ∀ rk g, groupGet (vs.foldl (processValue fs ftl md5h) st) rk = some g → ∀ r ∈ g.1, r ≠ [] := by
  intro vs
  induction vs with
  | nil => intro st hst; simpa using hst
  | cons v vs ih =>
    intro st hst
    rw [List.foldl_cons]
    apply ih
    intro rk g hg r hr
    unfold processValue at hg
    cases hc : cleanedOf fs ftl v with
    | none => rw [hc] at hg; exact hst rk g hg r hr
    | some p =>
      obtain ⟨rk', rec'⟩ := p
      rw [hc] at hg
      simp only at hg
      rcases mem_updateGroup hg hr with ⟨g0, hg0, hr0⟩ | rfl
      · exact hst rk g0 hg0 r hr0
      · exact cleanedOf_rec_ne_nil hc

/-- C7: the normalizer keeps exactly the fields whose value is neither
`None` nor the empty string; a record with no surviving field is dropped;
and consequently every record held in a route group of the transform output
is a non-empty mapping. -/
theorem C7_null_stripping (fs : String) (ftl : List String) (md5h : String → String) :
    (∀ (kvs : Record) (k : String) (v : PyVal),
      (k, v) ∈ stripNulls kvs ↔ ((k, v) ∈ kvs ∧ v ≠ PyVal.none ∧ v ≠ PyVal.str "")) ∧
    (∀ kvs : Record, stripNulls kvs = [] → cleanRow (PyVal.dict kvs) = Option.none) ∧
    (∀ (vs : List PyVal) (rk : String) (g : List Record × List String),
      groupGet (transformValues fs ftl md5h vs) rk = some g → ∀ r ∈ g.1, r ≠ []) := by
  refine ⟨stripNulls_mem, ?_, ?_⟩
  · intro kvs h
    simp [cleanRow, h]
  · intro vs rk g hg
    exact transformValues_records_ne_nil_aux fs ftl md5h vs []
      (by intro rk g h; simp [groupGet] at h) rk g hg

/-- C7 witness: the spec's own examples, checked through the theorem. -/
theorem C7_null_stripping_witness :
    (("c", PyVal.str "x") ∈ stripNulls [("a", PyVal.none), ("b", PyVal.str ""), ("c", PyVal.str "x")]
      ↔ (("c", PyVal.str "x") ∈ [("a", PyVal.none), ("b", PyVal.str ""), ("c", PyVal.str "x")] ∧
          PyVal.str "x" ≠ PyVal.none ∧ PyVal.str "x" ≠ PyVal.str "")) ∧
    cleanRow (PyVal.dict [("a", PyVal.none)]) = Option.none :=
  ⟨(C7_null_stripping "finance" FINANCE_TABLE_LIST id).1
      [("a", PyVal.none), ("b", PyVal.str ""), ("c", PyVal.str "x")] "c" (PyVal.str "x"),
   (C7_null_stripping "finance" FINANCE_TABLE_LIST id).2.1 [("a", PyVal.none)] (by rfl)⟩

/-- C8 (code bug): a timestamp string that carries an explicit negative UTC
offset is not left unchanged — the code only tests for a trailing `Z`/`z`
or the presence of `+`, so `-05:00` fails every test and a spurious `Z` is
appended, corrupting the value.  This contradicts both the claim and the
code's own comment `(won't break if it's already with offset)`. -/
theorem C8_negative_offset_gets_z :
    standardize_timestamps [("timestamp", PyVal.str "2024-01-01T00:00:00-05:00")] =
      [("timestamp", PyVal.str "2024-01-01T00:00:00-05:00Z")] := by
  rfl

theorem startsWithChars_append_self (pat rest : List Char) :
    startsWithChars pat (pat ++ rest) = true := by
  induction pat with
  | nil => rfl
  | cons c cs ih => simp [startsWithChars, ih]

theorem replaceFirstWithEmpty_append (pat rest : List Char) :
    replaceFirstWithEmpty pat (pat ++ rest) = rest := by
  cases pat with
  | nil =>
    cases rest with
    | nil => rfl
    | cons c cs => simp [replaceFirstWithEmpty, startsWithChars]
  | cons p ps =>
    show replaceFirstWithEmpty (p :: ps) (p :: (ps ++ rest)) = rest
    rw [replaceFirstWithEmpty]
    rw [← List.cons_append, if_pos (startsWithChars_append_self (p :: ps) rest)]
    exact List.drop_left (p :: ps) rest

/-- C10: the trusted-key generator is a pure function (repeated calls agree);
for a source key under the raw root it produces exactly
`trusted/<route>/<relative path, ".gz" stripped, ".json" enforced>`; and for
one source key two distinct routes always produce distinct output keys. -/
theorem C10_trusted_key (rest r1 r2 : List Char) :
    (∀ raw route : List Char, generate_trusted_key raw route = generate_trusted_key raw route) ∧
    (∀ route : List Char,
      generate_trusted_key ("raw/".data ++ rest) route =
        "trusted/".data ++ route ++ "/".data ++
          (let kp := if endsWithChars ".gz".data rest then rest.dropLast.dropLast.dropLast else rest
           if endsWithChars ".json".data kp then kp else kp ++ ".json".data)) ∧
    (∀ raw : List Char, r1 ≠ r2 →
      generate_trusted_key raw r1 ≠ generate_trusted_key raw r2) := by
  refine ⟨fun _ _ => rfl, ?_, ?_⟩
  · intro route
    simp only [generate_trusted_key, keyPartsOf, replaceFirstWithEmpty_append]
  · intro raw hne he
    apply hne
    simpa [generate_trusted_key] using he

theorem dedupFold_spec (h : Record → String) :
    ∀ (rs : List Record) (out : List Record) (seen : List String),
      (rs.foldl (dedupStep h) (out, seen)).1 = out ++ keepFirstsAux h seen rs ∧
      (rs.foldl (dedupStep h) (out, seen)).2 = seen ++ (keepFirstsAux h seen rs).map h := by
  intro rs
  induction rs with
  | nil => intro out seen; simp [keepFirstsAux]
  | cons r rs ih =>
    intro out seen
    rw [List.foldl_cons]
    by_cases hm : h r ∈ seen
    · simp only [dedupStep, hm, if_pos, keepFirstsAux, if_true]
      exact ih out seen
    · simp only [dedupStep, hm, if_false, keepFirstsAux, if_neg, not_false_iff]
      rcases ih (out ++ [r]) (seen ++ [h r]) with ⟨h1, h2⟩
      constructor
      · rw [h1, List.append_assoc]; rfl
      · rw [h2, List.append_assoc]; rfl

theorem keepFirstsAux_sublist (h : Record → String) :
    ∀ (rs : List Record) (seen : List String), (keepFirstsAux h seen rs).Sublist rs := by
  intro rs
  induction rs with
  | nil => intro seen; simp [keepFirstsAux]
  | cons r rs ih =>
    intro seen
    by_cases hm : h r ∈ seen
    · simp only [keepFirstsAux, hm, if_true]
      exact (ih seen).trans (List.sublist_cons_self r rs)
    · simp only [keepFirstsAux, hm, if_false]
      exact (ih (seen ++ [h r])).cons₂ r

theorem keepFirstsAux_nodup (h : Record → String) :
    ∀ (rs : List Record) (seen : List String),
      ((keepFirstsAux h seen rs).map h).Nodup ∧
      ∀ s ∈ (keepFirstsAux h seen rs).map h, s ∉ seen := by
  intro rs
  induction rs with
  | nil => intro seen; simp [keepFirstsAux]
  | cons r rs ih =>
    intro seen
    by_cases hm : h r ∈ seen
    · simp only [keepFirstsAux, hm, if_true]
      exact ih seen
    · simp only [keepFirstsAux, hm, if_false, List.map_cons, List.nodup_cons]
      rcases ih (seen ++ [h r]) with ⟨h1, h2⟩
      refine ⟨⟨?_, h1⟩, ?_⟩
      · intro hc
        have := h2 _ hc
        simp at this
      · intro s hs
        simp only [List.mem_cons] at hs
        rcases hs with rfl | hs
        · exact hm
        · intro hcon
          exact h2 s hs (by simp [hcon])

theorem groupGet_updateGroup_same (st : GroupSt) (rk : String) (rec : Record) (h' : String) :
    groupGet (updateGroup st rk rec h') rk =
      some (match groupGet st rk with
            | Option.none => ([rec], [h'])
            | some (rs, hs) => if h' ∈ hs then (rs, hs) else (rs ++ [rec], hs ++ [h'])) := by
  induction st with
  | nil => simp [updateGroup, groupGet]
  | cons hd rest ih =>
    obtain ⟨k, rs, hs⟩ := hd
    by_cases hk : k = rk
    · subst hk
      by_cases hh : h' ∈ hs
      · simp [updateGroup, groupGet, hh]
      · simp [updateGroup, groupGet, hh]
    · simp only [updateGroup, hk, if_neg, not_false_iff, groupGet, if_neg]
      exact ih

theorem groupGet_updateGroup_other (st : GroupSt) {rk' rk : String} (rec : Record) (h' : String)
    (hne : rk' ≠ rk) :
    groupGet (updateGroup st rk' rec h') rk = groupGet st rk := by
  induction st with
  | nil => simp [updateGroup, groupGet, hne]
  | cons hd rest ih =>
    obtain ⟨k, rs, hs⟩ := hd
    by_cases hk : k = rk'
    · subst hk
      have hk2 : k ≠ rk := hne
      by_cases hh : h' ∈ hs <;> simp [updateGroup, groupGet, hh, hk2]
    · by_cases hk2 : k = rk
      · subst hk2
        simp [updateGroup, groupGet, hk]
      · simp [updateGroup, groupGet, hk, hk2, ih]

theorem routedRecords_cons (fs : String) (ftl : List String) (rk : String) (v : PyVal)
    (vs : List PyVal) :
    routedRecords fs ftl rk (v :: vs) =
      (match cleanedOf fs ftl v with
       | some (rk', rec) => if rk' = rk then [rec] else []
       | Option.none => []) ++ routedRecords fs ftl rk vs := by
  simp only [routedRecords, List.filterMap_cons]
  cases hc : cleanedOf fs ftl v with
  | none => rfl
  | some p =>
    obtain ⟨rk', rec⟩ := p
    by_cases hk : rk' = rk <;> simp [hk]

theorem transformValues_groups_aux (fs : String) (ftl : List String) (md5h : String → String) :
    ∀ (vs : List PyVal) (st : GroupSt) (base : String → List Record),
      (∀ rk, groupGet st rk =
        (if (base rk).isEmpty then Option.none
         else some (dedupFold (fun rec => md5h (jsonDumps rec)) (base rk)))) →
      ∀ rk, groupGet (vs.foldl (processValue fs ftl md5h) st) rk =
        (if (base rk ++ routedRecords fs ftl rk vs).isEmpty then Option.none
         else some (dedupFold (fun rec => md5h (jsonDumps rec)) (base rk ++ routedRecords fs ftl rk vs))) := by
  intro vs
  induction vs with
  | nil =>
    intro st base hst rk
    have h0 : routedRecords fs ftl rk [] = [] := rfl
    rw [List.foldl_nil, h0, List.append_nil]
    exact hst rk
  | cons v vs ih =>
    intro st base hst rk
    rw [List.foldl_cons]
    have hstep : ∀ rk2, groupGet (processValue fs ftl md5h st v) rk2 =
        (if ((fun rk2 => base rk2 ++ (match cleanedOf fs ftl v with
             | some (rk', rec) => if rk' = rk2 then [rec] else []
             | Option.none => [])) rk2).isEmpty then Option.none
         else some (dedupFold (fun rec => md5h (jsonDumps rec))
            ((fun rk2 => base rk2 ++ (match cleanedOf fs ftl v with
             | some (rk', rec) => if rk' = rk2 then [rec] else []
             | Option.none => [])) rk2))) := by
      intro rk2
      simp only []
      cases hc : cleanedOf fs ftl v with
      | none =>
        simp only [processValue, hc, List.append_nil]
        exact hst rk2
      | some p =>
        obtain ⟨rk0, rec⟩ := p
        simp only [processValue, hc]
        by_cases hk : rk0 = rk2
        · subst hk
          rw [groupGet_updateGroup_same, if_pos rfl, hst rk0]
          by_cases hb : (base rk0).isEmpty
          · rw [List.isEmpty_iff] at hb
            simp [hb, dedupFold, dedupStep]
          · rw [if_neg hb]
            rw [List.isEmpty_iff] at hb
            rw [if_neg (by simp [List.isEmpty_iff, hb])]
            have hd : dedupFold (fun rec => md5h (jsonDumps rec)) (base rk0 ++ [rec]) =
                dedupStep (fun rec => md5h (jsonDumps rec))
                  (dedupFold (fun rec => md5h (jsonDumps rec)) (base rk0)) rec := by
              simp [dedupFold, List.foldl_append]
            rw [hd]
            rfl
        · rw [groupGet_updateGroup_other _ _ _ hk, if_neg hk, List.append_nil]
          exact hst rk2
    have hres := ih (processValue fs ftl md5h st v)
      (fun rk2 => base rk2 ++ (match cleanedOf fs ftl v with
        | some (rk', rec) => if rk' = rk2 then [rec] else []
        | Option.none => [])) hstep rk
    rw [routedRecords_cons, ← List.append_assoc]
    exact hres

theorem transformValues_groups (fs : String) (ftl : List String) (md5h : String → String)
    (vs : List PyVal) (rk : String) :
    groupGet (transformValues fs ftl md5h vs) rk =
      (if (routedRecords fs ftl rk vs).isEmpty then Option.none
       else some (dedupFold (fun rec => md5h (jsonDumps rec)) (routedRecords fs ftl rk vs))) := by
  have hres := transformValues_groups_aux fs ftl md5h vs [] (fun _ => [])
    (by intro rk2; simp [groupGet]) rk
  simpa [transformValues] using hres

theorem insertByKey_perm (p : String × String) (l : List (String × String)) :
    (insertByKey p l).Perm (p :: l) := by
  induction l with
  | nil => simp [insertByKey]
  | cons q rest ih =>
    by_cases hle : p.1 ≤ q.1
    · simp [insertByKey, hle]
    · simp only [insertByKey, hle, if_false]
      exact (ih.cons q).trans (List.Perm.swap p q rest)

theorem sortByKey_perm (l : List (String × String)) : (sortByKey l).Perm l := by
  induction l with
  | nil => simp [sortByKey]
  | cons p rest ih =>
    exact (insertByKey_perm p (sortByKey rest)).trans (ih.cons p)

theorem insertByKey_sorted (p : String × String) (l : List (String × String))
    (hl : l.Pairwise (fun a b => a.1 ≤ b.1)) :
    (insertByKey p l).Pairwise (fun a b => a.1 ≤ b.1) := by
  induction l with
  | nil => simp [insertByKey]
  | cons q rest ih =>
    rcases List.pairwise_cons.1 hl with ⟨hq, hrest⟩
    by_cases hle : p.1 ≤ q.1
    · rw [insertByKey, if_pos hle]
      refine List.pairwise_cons.2 ⟨?_, hl⟩
      intro x hx
      rcases List.mem_cons.1 hx with rfl | hx
      · exact hle
      · exact hle.trans (hq x hx)
    · rw [insertByKey, if_neg hle]
      refine List.pairwise_cons.2 ⟨?_, ih hrest⟩
      intro x hx
      have hx2 := (insertByKey_perm p rest).mem_iff.1 hx
      rcases List.mem_cons.1 hx2 with rfl | hx2
      · exact le_of_lt (lt_of_not_le hle)
      · exact hq x hx2

theorem sortByKey_sorted (l : List (String × String)) :
    (sortByKey l).Pairwise (fun a b => a.1 ≤ b.1) := by
  induction l with
  | nil => simp [sortByKey]
  | cons p rest ih => exact insertByKey_sorted p (sortByKey rest) ih

theorem eq_of_perm_sorted_nodupKeys :
    ∀ {l₁ l₂ : List (String × String)}, l₁.Perm l₂ →
      l₁.Pairwise (fun a b => a.1 ≤ b.1) → l₂.Pairwise (fun a b => a.1 ≤ b.1) →
      (l₁.map Prod.fst).Nodup → l₁ = l₂ := by
  intro l₁
  induction l₁ with
  | nil => intro l₂ hp _ _ _; exact (hp.nil_eq).symm ▸ rfl
  | cons a t₁ ih =>
    intro l₂ hp hs₁ hs₂ hnd
    cases l₂ with
    | nil => exact absurd hp.symm.nil_eq (by simp)
    | cons b t₂ =>
      have hab : a = b := by
        have ha : a ∈ b :: t₂ := hp.subset (List.mem_cons_self a t₁)
        have hb : b ∈ a :: t₁ := hp.symm.subset (List.mem_cons_self b t₂)
        rcases List.mem_cons.1 ha with rfl | ha
        · rfl
        rcases List.mem_cons.1 hb with rfl | hb
        · rfl
        have h1 : a.1 ≤ b.1 := (List.pairwise_cons.1 hs₁).1 b hb
        have h2 : b.1 ≤ a.1 := (List.pairwise_cons.1 hs₂).1 a ha
        have hk : a.1 = b.1 := le_antisymm h1 h2
        have : a.1 ∉ t₁.map Prod.fst := (List.nodup_cons.1 (by simpa using hnd)).1
        exact absurd (hk ▸ List.mem_map_of_mem Prod.fst hb) this
      subst hab
      have ht : t₁.Perm t₂ := hp.cons_inv
      have := ih ht (List.pairwise_cons.1 hs₁).2 (List.pairwise_cons.1 hs₂).2
        (List.nodup_cons.1 (by simpa using hnd)).2
      rw [this]

theorem jsonDumps_eq (r : Record) :
    jsonDumps r =
      "\x7b" ++
      joinComma ((sortByKey (r.map (fun kv => (kv.1, dumpVal kv.2)))).map
        (fun p => encodeJsonString p.1 ++ ": " ++ p.2)) ++
      "\x7d" := by
  rw [jsonDumps, dumpVal]
  rw [List.attach_map_val r (fun kv => (kv.1, dumpVal kv.2))]

theorem jsonDumps_perm_eq {r₁ r₂ : Record} (hp : r₁.Perm r₂)
    (hnd : (r₁.map Prod.fst).Nodup) : jsonDumps r₁ = jsonDumps r₂ := by
  rw [jsonDumps_eq, jsonDumps_eq]
  have hkey : sortByKey (r₁.map (fun kv => (kv.1, dumpVal kv.2))) =
      sortByKey (r₂.map (fun kv => (kv.1, dumpVal kv.2))) := by
    apply eq_of_perm_sorted_nodupKeys
    · exact (sortByKey_perm _).trans ((hp.map _).trans (sortByKey_perm _).symm)
    · exact sortByKey_sorted _
    · exact sortByKey_sorted _
    · have h1 : ((r₁.map (fun kv => (kv.1, dumpVal kv.2))).map Prod.fst) = r₁.map Prod.fst := by
        rw [List.map_map]; rfl
      have h2 := ((sortByKey_perm (r₁.map (fun kv => (kv.1, dumpVal kv.2)))).map Prod.fst).nodup_iff
      rw [h2, h1]
      exact hnd
  rw [hkey]

/-- C9: the dedup hash is a function of the key-sorted serialization, so two
records with the same field-value multiset (and unique keys) hash alike
whatever the insertion order; and within one invocation every route group
retains exactly the first record per distinct hash, in input order, its
stored hash list being the image of its records, so no two records of one
output batch hash identically. -/
theorem C9_dedup_by_content_hash (fs : String) (ftl : List String) (md5h : String → String) :
    (∀ r₁ r₂ : Record, r₁.Perm r₂ → (r₁.map Prod.fst).Nodup →
      md5h (jsonDumps r₁) = md5h (jsonDumps r₂)) ∧
    (∀ (vs : List PyVal) (rk : String) (g : List Record × List String),
      groupGet (transformValues fs ftl md5h vs) rk = some g →
      g.1 = dedupFirstOcc (fun rec => md5h (jsonDumps rec)) (routedRecords fs ftl rk vs) ∧
      g.2 = g.1.map (fun rec => md5h (jsonDumps rec)) ∧
      g.1.Sublist (routedRecords fs ftl rk vs) ∧
      (g.1.map (fun rec => md5h (jsonDumps rec))).Nodup) := by
  constructor
  · intro r₁ r₂ hp hnd
    rw [jsonDumps_perm_eq hp hnd]
  · intro vs rk g hg
    rw [transformValues_groups] at hg
    by_cases hr : (routedRecords fs ftl rk vs).isEmpty
    · rw [if_pos hr] at hg
      exact absurd hg (by simp)
    · rw [if_neg hr] at hg
      have hgv : g = dedupFold (fun rec => md5h (jsonDumps rec)) (routedRecords fs ftl rk vs) := by
        exact (Option.some.injEq _ _ ▸ hg.symm :)
      obtain ⟨h1, h2⟩ := dedupFold_spec (fun rec => md5h (jsonDumps rec))
        (routedRecords fs ftl rk vs) [] []
      rw [List.nil_append] at h1 h2
      have hu : dedupFold (fun rec => md5h (jsonDumps rec)) (routedRecords fs ftl rk vs) =
          (keepFirstsAux (fun rec => md5h (jsonDumps rec)) [] (routedRecords fs ftl rk vs),
           (keepFirstsAux (fun rec => md5h (jsonDumps rec)) [] (routedRecords fs ftl rk vs)).map
             (fun rec => md5h (jsonDumps rec))) := by
        apply Prod.ext
        · exact h1
        · exact h2
      refine ⟨?_, ?_, ?_, ?_⟩
      · rw [hgv, hu]; rfl
      · rw [hgv, hu]
      · rw [hgv, hu]
        exact keepFirstsAux_sublist _ _ _
      · rw [hgv, hu]
        exact (keepFirstsAux_nodup _ _ _).1

/-- C4 witness: an `awsdms_status` heartbeat envelope, checked through the
theorem at the default configuration. -/
theorem C4_control_records_dropped_witness :
    routeOf "finance" ["transactions", "accounts"]
      (PyVal.dict [("data", PyVal.dict [("a", PyVal.int 1)]),
                   ("metadata", PyVal.dict [("table-name", PyVal.str "awsdms_status")])]) =
      Option.none ∧
    transformValues "finance" ["transactions", "accounts"] id
        ([] ++ PyVal.dict [("data", PyVal.dict [("a", PyVal.int 1)]),
                           ("metadata", PyVal.dict [("table-name", PyVal.str "awsdms_status")])] :: []) =
      transformValues "finance" ["transactions", "accounts"] id ([] ++ []) :=
  C4_control_records_dropped "finance" ["transactions", "accounts"] id
    [("data", PyVal.dict [("a", PyVal.int 1)]),
     ("metadata", PyVal.dict [("table-name", PyVal.str "awsdms_status")])]
    [("table-name", PyVal.str "awsdms_status")] "awsdms_status"
    (by rfl) (by rfl) (by rfl) (by rfl) [] []

/-- C5 witness: the spec's examples — `finance/transactions` routes,
`finance/unknown_table` is dropped, and an unrecognized `hr/whatever`
envelope is dropped. -/
theorem C5_finance_allowlist_witness :
    routeOf "finance" ["transactions", "accounts"]
      (PyVal.dict [("data", PyVal.dict [("id", PyVal.int 1)]),
                   ("metadata", PyVal.dict [("table-name", PyVal.str "Transactions"),
                                            ("schema-name", PyVal.str "FINANCE")])]) =
      some ("finance", "transactions", PyVal.dict [("id", PyVal.int 1)]) ∧
    routeOf "finance" ["transactions", "accounts"]
      (PyVal.dict [("data", PyVal.dict [("id", PyVal.int 1)]),
                   ("metadata", PyVal.dict [("table-name", PyVal.str "unknown_table"),
                                            ("schema-name", PyVal.str "finance")])]) =
      Option.none ∧
    routeOf "finance" ["transactions", "accounts"]
      (PyVal.dict [("data", PyVal.dict [("id", PyVal.int 1)]),
                   ("metadata", PyVal.dict [("table-name", PyVal.str "whatever"),
                                            ("schema-name", PyVal.str "hr")])]) =
      Option.none :=
  ⟨(C5_finance_allowlist "finance" ["transactions", "accounts"]
      [("data", PyVal.dict [("id", PyVal.int 1)]),
       ("metadata", PyVal.dict [("table-name", PyVal.str "Transactions"),
                                ("schema-name", PyVal.str "FINANCE")])]
      [("table-name", PyVal.str "Transactions"), ("schema-name", PyVal.str "FINANCE")]
      "transactions" "finance" (by rfl) (by rfl) (by rfl) (by rfl) (by rfl)).1
      rfl (by decide),
   (C5_finance_allowlist "finance" ["transactions", "accounts"]
      [("data", PyVal.dict [("id", PyVal.int 1)]),
       ("metadata", PyVal.dict [("table-name", PyVal.str "unknown_table"),
                                ("schema-name", PyVal.str "finance")])]
      [("table-name", PyVal.str "unknown_table"), ("schema-name", PyVal.str "finance")]
      "unknown_table" "finance" (by rfl) (by rfl) (by rfl) (by rfl) (by rfl)).2.1
      rfl (by decide) (by decide),
   (C5_finance_allowlist "finance" ["transactions", "accounts"]
      [("data", PyVal.dict [("id", PyVal.int 1)]),
       ("metadata", PyVal.dict [("table-name", PyVal.str "whatever"),
                                ("schema-name", PyVal.str "hr")])]
      [("table-name", PyVal.str "whatever"), ("schema-name", PyVal.str "hr")]
      "whatever" "hr" (by rfl) (by rfl) (by rfl) (by rfl) (by rfl)).2.2
      (by decide) (by decide)⟩

/-- C6 witness: a bare row without the envelope shape. -/
theorem C6_bare_row_default_route_witness :
    routeOf "finance" ["transactions", "accounts"] (PyVal.dict [("id", PyVal.int 1)]) =
      some ("employees", "employees", PyVal.dict [("id", PyVal.int 1)]) :=
  C6_bare_row_default_route "finance" ["transactions", "accounts"] [("id", PyVal.int 1)] (by rfl)

/-- C9 witness: key order does not affect the hash, and a duplicate-free
single-record batch is its own dedup fixed point. -/
theorem C9_dedup_by_content_hash_witness :
    (id (jsonDumps [("a", PyVal.int 1), ("b", PyVal.str "x")]) =
       id (jsonDumps [("b", PyVal.str "x"), ("a", PyVal.int 1)])) ∧
    ([[("c", PyVal.str "x")]] = dedupFirstOcc (fun rec => id (jsonDumps rec))
        (routedRecords "finance" ["transactions", "accounts"] "employees/employees"
          [PyVal.dict [("c", PyVal.str "x")]]) ∧
     [id (jsonDumps [("c", PyVal.str "x")])] =
       ([[("c", PyVal.str "x")]] : List Record).map (fun rec => id (jsonDumps rec)) ∧
     List.Sublist [[("c", PyVal.str "x")]]
        (routedRecords "finance" ["transactions", "accounts"] "employees/employees"
          [PyVal.dict [("c", PyVal.str "x")]]) ∧
     (([[("c", PyVal.str "x")]] : List Record).map (fun rec => id (jsonDumps rec))).Nodup) :=
  ⟨(C9_dedup_by_content_hash "finance" ["transactions", "accounts"] id).1
      [("a", PyVal.int 1), ("b", PyVal.str "x")] [("b", PyVal.str "x"), ("a", PyVal.int 1)]
      (List.Perm.swap ("b", PyVal.str "x") ("a", PyVal.int 1) []) (by decide),
   (C9_dedup_by_content_hash "finance" ["transactions", "accounts"] id).2
      [PyVal.dict [("c", PyVal.str "x")]] "employees/employees"
      ([[("c", PyVal.str "x")]], [id (jsonDumps [("c", PyVal.str "x")])]) (by rfl)⟩

/-- C10 witness: two routes of the same source object land on distinct keys,
and the documented example path shape holds. -/
theorem C10_trusted_key_witness :
    generate_trusted_key "raw/2026/02/07/file.gz".data "finance/transactions".data ≠
      generate_trusted_key "raw/2026/02/07/file.gz".data "employees/employees".data :=
  (C10_trusted_key "2026/02/07/file.gz".data "finance/transactions".data
    "employees/employees".data).2.2 "raw/2026/02/07/file.gz".data (by decide)

/-!
Scanner lemmas.  The goal is the locality ("extension") property of the
decoder — a fully decoded chunk decodes the same way when more text follows,
under the side conditions forced by the number grammar's maximal munch — and
the fuel monotonicity needed to re-run a decode with the larger fuel the
scanning loop supplies.
-/

theorem dropWhile_append_cons {p : Char → Bool} {u : List Char} {c : Char} {x t : List Char}
    (h : u.dropWhile p = c :: x) : (u ++ t).dropWhile p = c :: (x ++ t) := by
  rw [List.dropWhile_append, h]
  simp

theorem takeWhile_append_stop {p : Char → Bool} {u : List Char} {c : Char} {x : List Char}
    (t : List Char) (h : u.dropWhile p = c :: x) : (u ++ t).takeWhile p = u.takeWhile p := by
  rw [List.takeWhile_append]
  have hlen : (u.takeWhile p).length ≠ u.length := by
    intro he
    have h2 : (u.takeWhile p).length + (u.dropWhile p).length = u.length := by
      rw [← List.length_append, List.takeWhile_append_dropWhile]
    rw [h] at h2
    simp only [List.length_cons] at h2
    omega
  rw [if_neg hlen]

theorem dropWhile_append_all {p : Char → Bool} {u : List Char} (t : List Char)
    (h : u.dropWhile p = []) : (u ++ t).dropWhile p = t.dropWhile p := by
  rw [List.dropWhile_append, h]
  simp

theorem takeWhile_append_all {p : Char → Bool} {u : List Char} (t : List Char)
    (h : u.dropWhile p = []) : (u ++ t).takeWhile p = u ++ t.takeWhile p := by
  rw [List.takeWhile_append, if_pos]
  have := List.takeWhile_append_dropWhile p u
  rw [h, List.append_nil] at this
  rw [this]

theorem startsWithChars_append_true {pat u : List Char} (t : List Char)
    (h : startsWithChars pat u = true) : startsWithChars pat (u ++ t) = true := by
  induction pat generalizing u with
  | nil => rfl
  | cons p ps ih =>
    cases u with
    | nil => simp [startsWithChars] at h
    | cons c cs =>
      simp only [startsWithChars, Bool.and_eq_true] at h ⊢
      exact ⟨h.1, ih h.2⟩

theorem startsWithChars_le_length {pat u : List Char}
    (h : startsWithChars pat u = true) : pat.length ≤ u.length := by
  induction pat generalizing u with
  | nil => simp
  | cons p ps ih =>
    cases u with
    | nil => simp [startsWithChars] at h
    | cons c cs =>
      simp only [startsWithChars, Bool.and_eq_true] at h
      simpa using ih h.2

theorem startsWithChars_append_stable {pat u : List Char} (t : List Char)
    (h : pat.length ≤ u.length) : startsWithChars pat (u ++ t) = startsWithChars pat u := by
  induction pat generalizing u with
  | nil => rfl
  | cons p ps ih =>
    cases u with
    | nil => simp at h
    | cons c cs =>
      have h2 : startsWithChars ps (cs ++ t) = startsWithChars ps cs := ih (by simpa using h)
      simp only [List.cons_append, startsWithChars]
      exact congrArg (fun b => p == c && b) h2

theorem startsWithChars_eq_take {pat u : List Char}
    (h : startsWithChars pat u = true) : u = pat ++ u.drop pat.length := by
  induction pat generalizing u with
  | nil => rfl
  | cons p ps ih =>
    cases u with
    | nil => simp [startsWithChars] at h
    | cons c cs =>
      simp only [startsWithChars, Bool.and_eq_true, beq_iff_eq] at h
      obtain ⟨rfl, h2⟩ := h
      simpa using ih h2

theorem drop_append_of_le {u t : List Char} {n : Nat} (h : n ≤ u.length) :
    (u ++ t).drop n = u.drop n ++ t := by
  induction u generalizing n with
  | nil =>
    have : n = 0 := by simpa using h
    simp [this]
  | cons c cs ih =>
    cases n with
    | zero => simp
    | succ m =>
      simp only [List.cons_append, List.drop_succ_cons]
      exact ih (by simpa using h)

theorem hex4_append {u : List Char} {n : Nat} {r : List Char} (t : List Char)
    (h : hex4 u = some (n, r)) : hex4 (u ++ t) = some (n, r ++ t) := by
  match u with
  | [] => simp [hex4] at h
  | [a] => simp [hex4] at h
  | [a, b] => simp [hex4] at h
  | [a, b, c] => simp [hex4] at h
  | a :: b :: c :: d :: rest =>
    simp only [hex4] at h ⊢
    cases ha : hexDigitVal a <;> cases hb : hexDigitVal b <;> cases hc : hexDigitVal c <;>
      cases hd : hexDigitVal d <;> simp only [ha, hb, hc, hd] at h ⊢ <;> simp_all

theorem digitSpan_append {x u : List Char}
    (hcond : x.dropWhile Char.isDigit = [] → ∀ c cs, u = c :: cs → c.isDigit = false) :
    (x ++ u).takeWhile Char.isDigit = x.takeWhile Char.isDigit ∧
    (x ++ u).dropWhile Char.isDigit = x.dropWhile Char.isDigit ++ u := by
  cases hx : x.dropWhile Char.isDigit with
  | cons d y =>
    refine ⟨takeWhile_append_stop u hx, ?_⟩
    rw [dropWhile_append_cons hx]
    rfl
  | nil =>
    have hxx : x.takeWhile Char.isDigit = x := by
      have h2 := List.takeWhile_append_dropWhile Char.isDigit x
      rw [hx, List.append_nil] at h2
      exact h2
    have hu : u.takeWhile Char.isDigit = [] ∧ u.dropWhile Char.isDigit = u := by
      cases u with
      | nil => simp
      | cons c cs =>
        have hcc := hcond hx c cs rfl
        simp [List.takeWhile_cons, List.dropWhile_cons, hcc]
    refine ⟨?_, ?_⟩
    · rw [takeWhile_append_all u hx, hu.1, List.append_nil, hxx]
    · rw [dropWhile_append_all u hx, hu.2, List.nil_append]


theorem parseIntPart_append {s ip r1 : List Char} (t : List Char)
    (h : parseIntPart s = some (ip, r1))
    (hnil : r1 = [] → noNumExt t) :
    parseIntPart (s ++ t) = some (ip, r1 ++ t) := by
  cases s with
  | nil => simp [parseIntPart] at h
  | cons c r =>
    simp only [List.cons_append, parseIntPart] at h ⊢
    by_cases h0 : c = '0'
    · rw [if_pos h0] at h ⊢
      injection h with h'
      injection h' with hA hB
      subst hA; subst hB
      rfl
    · rw [if_neg h0] at h ⊢
      by_cases hd : c.isDigit
      · rw [if_pos hd] at h ⊢
        injection h with h'
        injection h' with hA hB
        subst hA; subst hB
        obtain ⟨hTW, hDW⟩ := digitSpan_append (x := r) (u := t)
          (fun hdw c' cs' hts => ((hnil (by rw [hdw])) c' cs' hts).1)
        rw [hTW, hDW]
      · rw [if_neg hd] at h
        exact absurd h (by simp)

theorem parseFracPart_append {r1 fp r2 : List Char} (t : List Char)
    (h : parseFracPart r1 = (fp, r2))
    (hnil : r2 = [] → noNumExt t)
    (hdot : ∀ cs, r2 ≠ '.' :: cs) :
    parseFracPart (r1 ++ t) = (fp, r2 ++ t) := by
  cases r1 with
  | nil =>
    injection h with hA hB
    subst hA; subst hB
    cases t with
    | nil => rfl
    | cons c cs =>
      have hc := hnil rfl c cs rfl
      simp [parseFracPart, hc.2.1]
  | cons c r1' =>
    simp only [List.cons_append, parseFracPart] at h ⊢
    by_cases hc : c = '.'
    · subst hc
      rw [if_pos rfl] at h ⊢
      by_cases he : (r1'.takeWhile Char.isDigit).isEmpty
      · rw [if_pos he] at h
        injection h with hA hB
        exact absurd hB.symm (hdot r1')
      · rw [if_neg he] at h
        injection h with hA hB
        subst hA; subst hB
        obtain ⟨hTW, hDW⟩ := digitSpan_append (x := r1') (u := t)
          (fun hdw c' cs' hts => ((hnil (by rw [hdw])) c' cs' hts).1)
        rw [hTW, hDW, if_neg he]
    · rw [if_neg hc] at h ⊢
      injection h with hA hB
      subst hA; subst hB
      rfl

theorem parseExpPart_append {r2 ep r3 : List Char} (t : List Char)
    (h : parseExpPart r2 = (ep, r3))
    (hnil : r3 = [] → noNumExt t)
    (hhead : ∀ c cs, r3 = c :: cs → ¬(c = 'e' ∨ c = 'E')) :
    parseExpPart (r2 ++ t) = (ep, r3 ++ t) := by
  cases r2 with
  | nil =>
    injection h with hA hB
    subst hA; subst hB
    cases t with
    | nil => rfl
    | cons c cs =>
      have hc := hnil rfl c cs rfl
      simp [parseExpPart, hc.2.2.1, hc.2.2.2.1]
  | cons c r' =>
    simp only [List.cons_append, parseExpPart] at h ⊢
    by_cases hce : c = 'e' ∨ c = 'E'
    · rw [if_pos hce] at h ⊢
      cases r' with
      | nil =>
        injection h with hA hB
        subst hA; subst hB
        exact absurd (hhead c [] rfl) (by simp [hce])
      | cons s1 r2' =>
        simp only [List.cons_append] at h ⊢
        by_cases hs1 : s1 = '+' ∨ s1 = '-'
        · rw [if_pos hs1] at h ⊢
          by_cases hemp : (r2'.takeWhile Char.isDigit).isEmpty
          · rw [if_pos hemp] at h
            injection h with hA hB
            exact absurd (hhead c (s1 :: r2') hB.symm) (by simp [hce])
          · rw [if_neg hemp] at h
            injection h with hA hB
            subst hA; subst hB
            obtain ⟨hTW, hDW⟩ := digitSpan_append (x := r2') (u := t)
              (fun hdw c' cs' hts => ((hnil (by rw [hdw])) c' cs' hts).1)
            rw [hTW, hDW, if_neg hemp]
        · rw [if_neg hs1] at h ⊢
          by_cases hemp : ((s1 :: r2').takeWhile Char.isDigit).isEmpty
          · rw [if_pos hemp] at h
            injection h with hA hB
            exact absurd (hhead c (s1 :: r2') hB.symm) (by simp [hce])
          · rw [if_neg hemp] at h
            injection h with hA hB
            subst hA; subst hB
            obtain ⟨hTW, hDW⟩ := digitSpan_append (x := s1 :: r2') (u := t)
              (fun hdw c' cs' hts => ((hnil (by rw [hdw])) c' cs' hts).1)
            rw [List.cons_append] at hTW hDW
            rw [hTW, hDW, if_neg hemp]
    · rw [if_neg hce] at h ⊢
      injection h with hA hB
      subst hA; subst hB
      rfl

theorem parseNum_append {s lex r : List Char} (t : List Char)
    (h : parseNum s = some (lex, r))
    (hnil : r = [] → noNumExt t)
    (hhead : ∀ c' cs', r = c' :: cs' → (c' ≠ '.' ∧ c' ≠ 'e' ∧ c' ≠ 'E')) :
    parseNum (s ++ t) = some (lex, r ++ t) := by
  cases s with
  | nil => simp [parseNum] at h
  | cons c cs =>
    simp only [List.cons_append, parseNum] at h ⊢
    by_cases hneg : c = '-'
    · rw [if_pos hneg] at h ⊢
      cases hip : parseIntPart cs with
      | none => rw [hip] at h; exact absurd h (by simp)
      | some p =>
        obtain ⟨ip, r1⟩ := p
        rw [hip] at h
        dsimp only at h
        rcases hfr : parseFracPart r1 with ⟨fp, r2⟩
        rw [hfr] at h
        dsimp only at h
        rcases hex : parseExpPart r2 with ⟨ep, r3⟩
        rw [hex] at h
        dsimp only at h
        injection h with h'
        injection h' with hlex hr
        subst hlex; subst hr
        have hr3nil : r3 = [] → noNumExt t := hnil
        have hexhead : ∀ c' cs', r3 = c' :: cs' → ¬(c' = 'e' ∨ c' = 'E') := by
          intro c' cs' h3 hor
          rcases hor with h | h
          · exact (hhead c' cs' h3).2.1 h
          · exact (hhead c' cs' h3).2.2 h
        have hr2nil : r2 = [] → noNumExt t := by
          intro h2
          rw [h2] at hex
          have h' : (([], []) : List Char × List Char) = (ep, r3) := hex
          injection h' with hA hB
          exact hr3nil hB.symm
        have hr2dot : ∀ cs', r2 ≠ '.' :: cs' := by
          intro cs' h2
          rw [h2] at hex
          simp only [parseExpPart, if_neg (by decide : ¬('.' = 'e' ∨ '.' = 'E'))] at hex
          injection hex with hA hB
          exact (hhead '.' cs' hB.symm).1 rfl
        have hr1nil : r1 = [] → noNumExt t := by
          intro h1
          rw [h1] at hfr
          have h' : (([], []) : List Char × List Char) = (fp, r2) := hfr
          injection h' with hA hB
          exact hr2nil hB.symm
        rw [parseIntPart_append (s := cs) t hip hr1nil]
        dsimp only
        rw [parseFracPart_append t hfr hr2nil hr2dot]
        dsimp only
        rw [parseExpPart_append t hex hr3nil hexhead]
    · rw [if_neg hneg] at h ⊢
      cases hip : parseIntPart (c :: cs) with
      | none => rw [hip] at h; exact absurd h (by simp)
      | some p =>
        obtain ⟨ip, r1⟩ := p
        rw [hip] at h
        dsimp only at h
        rcases hfr : parseFracPart r1 with ⟨fp, r2⟩
        rw [hfr] at h
        dsimp only at h
        rcases hex : parseExpPart r2 with ⟨ep, r3⟩
        rw [hex] at h
        dsimp only at h
        injection h with h'
        injection h' with hlex hr
        subst hlex; subst hr
        have hr3nil : r3 = [] → noNumExt t := hnil
        have hexhead : ∀ c' cs', r3 = c' :: cs' → ¬(c' = 'e' ∨ c' = 'E') := by
          intro c' cs' h3 hor
          rcases hor with h | h
          · exact (hhead c' cs' h3).2.1 h
          · exact (hhead c' cs' h3).2.2 h
        have hr2nil : r2 = [] → noNumExt t := by
          intro h2
          rw [h2] at hex
          have h' : (([], []) : List Char × List Char) = (ep, r3) := hex
          injection h' with hA hB
          exact hr3nil hB.symm
        have hr2dot : ∀ cs', r2 ≠ '.' :: cs' := by
          intro cs' h2
          rw [h2] at hex
          simp only [parseExpPart, if_neg (by decide : ¬('.' = 'e' ∨ '.' = 'E'))] at hex
          injection hex with hA hB
          exact (hhead '.' cs' hB.symm).1 rfl
        have hr1nil : r1 = [] → noNumExt t := by
          intro h1
          rw [h1] at hfr
          have h' : (([], []) : List Char × List Char) = (fp, r2) := hfr
          injection h' with hA hB
          exact hr2nil hB.symm
        have hipApp := parseIntPart_append (s := c :: cs) t hip hr1nil
        rw [List.cons_append] at hipApp
        rw [hipApp]
        dsimp only
        rw [parseFracPart_append t hfr hr2nil hr2dot]
        dsimp only
        rw [parseExpPart_append t hex hr3nil hexhead]

theorem parseStrF_nil (f : Nat) : parseStrF f [] = Option.none := by
  cases f <;> rfl

theorem jsonValF_nil (f : Nat) : jsonValF f [] = Option.none := by
  cases f <;> rfl

theorem jsonMembersF_nil (f : Nat) : jsonMembersF f [] = Option.none := by
  cases f <;> rfl

theorem jsonElemsRestF_skipWs {f : Nat} {s : List Char} {l : List JValue} {r : List Char}
    (h : jsonElemsRestF f s = some (l, r)) :
    ∃ d x, skipWs s = d :: x ∧ (d = ']' ∨ d = ',') := by
  cases f with
  | zero => exact absurd h (by simp [jsonElemsRestF])
  | succ f =>
    simp only [jsonElemsRestF] at h
    cases hd : skipWs s with
    | nil => rw [hd] at h; exact absurd h (by simp)
    | cons d x =>
      rw [hd] at h
      dsimp only at h
      by_cases h1 : d = ']'
      · exact ⟨d, x, rfl, Or.inl h1⟩
      · rw [if_neg h1] at h
        by_cases h2 : d = ','
        · exact ⟨d, x, rfl, Or.inr h2⟩
        · rw [if_neg h2] at h
          exact absurd h (by simp)

theorem safeRest_of_skipWs {u : List Char} {d : Char} {x : List Char}
    (hd : skipWs u = d :: x) (hsafe : d ≠ '.' ∧ d ≠ 'e' ∧ d ≠ 'E') : SafeRest u := by
  cases u with
  | nil => simp [skipWs] at hd
  | cons c cs =>
    by_cases hw : jsonWs c = true
    · refine ⟨c, cs, rfl, ?_, ?_, ?_⟩ <;>
        (intro he; subst he; exact absurd hw (by decide))
    · rw [skipWs, List.dropWhile_cons, if_neg hw] at hd
      injection hd with h1 h2
      subst h1
      exact ⟨c, cs, rfl, hsafe⟩

theorem parseU_append {f : Nat} {r2 r3 t : List Char} {ch : Char} {q : List Char × List Char}
    (h : parseU r2 = some (ch, r3)) (hstr : parseStrF f r3 = some q) :
    parseU (r2 ++ t) = some (ch, r3 ++ t) := by
  simp only [parseU] at h ⊢
  cases hh : hex4 r2 with
  | none => rw [hh] at h; exact absurd h (by simp)
  | some p =>
    obtain ⟨n, r3'⟩ := p
    rw [hh] at h
    rw [hex4_append t hh]
    dsimp only at h ⊢
    by_cases hsur : 0xD800 ≤ n ∧ n < 0xDC00
    · rw [if_pos hsur] at h ⊢
      by_cases hsw : startsWithChars ['\\', 'u'] r3' = true
      · rw [if_pos hsw] at h
        rw [if_pos (startsWithChars_append_true t hsw)]
        obtain ⟨rest, hr3'⟩ : ∃ rest, r3' = '\\' :: 'u' :: rest := by
          cases r3' with
          | nil => exact absurd hsw (by simp [startsWithChars])
          | cons a as =>
            cases as with
            | nil => exact absurd hsw (by simp [startsWithChars])
            | cons b bs =>
              simp only [startsWithChars, Bool.and_true, Bool.and_eq_true, beq_iff_eq] at hsw
              refine ⟨bs, ?_⟩
              rw [← hsw.1, ← hsw.2]
        have hd2 : r3'.drop 2 = rest := by rw [hr3']; rfl
        have hd2t : (r3' ++ t).drop 2 = rest ++ t := by rw [hr3']; rfl
        rw [hd2t]
        rw [hd2] at h
        cases hh2 : hex4 rest with
        | none =>
          exfalso
          rw [hh2] at h
          dsimp only at h
          injection h with h'
          injection h' with hch hr3
          rw [← hr3, hr3'] at hstr
          cases f with
          | zero => exact absurd hstr (by simp [parseStrF])
          | succ f' => simp [parseStrF, parseU, hh2] at hstr
        | some p2 =>
          obtain ⟨m, r5⟩ := p2
          rw [hh2] at h
          rw [hex4_append t hh2]
          dsimp only at h ⊢
          by_cases hlow : 0xDC00 ≤ m ∧ m < 0xE000
          · rw [if_pos hlow] at h ⊢
            simp only [Option.some.injEq, Prod.mk.injEq] at h
            obtain ⟨hch, hr3⟩ := h
            rw [hch, hr3]
          · rw [if_neg hlow] at h ⊢
            simp only [Option.some.injEq, Prod.mk.injEq] at h
            obtain ⟨hch, hr3⟩ := h
            rw [← hch, ← hr3]
      · rw [if_neg hsw] at h
        injection h with h'
        injection h' with hch hr3
        cases r3' with
        | nil =>
          exfalso
          rw [← hr3] at hstr
          rw [parseStrF_nil] at hstr
          exact absurd hstr (by simp)
        | cons a as =>
          cases as with
          | nil =>
            by_cases ha : a = '\\'
            · exfalso
              rw [← hr3] at hstr
              subst ha
              cases f with
              | zero => exact absurd hstr (by simp [parseStrF])
              | succ f' => simp [parseStrF] at hstr
            · have hba : ('\\' == a) = false := by
                cases hcb : ('\\' == a)
                · rfl
                · have he : '\\' = a := by simpa [beq_iff_eq] using hcb
                  exact absurd he.symm ha
              have hswt : startsWithChars ['\\', 'u'] (a :: t) = false := by
                simp [startsWithChars, hba]
              have hcond : ¬(startsWithChars ['\\', 'u'] ([a] ++ t) = true) := by
                simp [hswt]
              rw [if_neg hcond]
              rw [← hch, ← hr3]
          | cons b bs =>
            have hswf : startsWithChars ['\\', 'u'] (a :: b :: bs) = false := by
              cases hcb : startsWithChars ['\\', 'u'] (a :: b :: bs)
              · rfl
              · exact absurd hcb hsw
            have hstab := @startsWithChars_append_stable ['\\', 'u'] (a :: b :: bs)
              t (by simp)
            have hcond : ¬(startsWithChars ['\\', 'u'] ((a :: b :: bs) ++ t) = true) := by
              rw [hstab, hswf]; simp
            rw [if_neg hcond]
            rw [← hch, ← hr3]
    · rw [if_neg hsur] at h ⊢
      injection h with h'
      injection h' with hch hr3
      rw [← hch, ← hr3]

theorem skipWs_append_cons {u : List Char} {c : Char} {x : List Char} (t : List Char)
    (h : skipWs u = c :: x) : skipWs (u ++ t) = c :: (x ++ t) :=
  dropWhile_append_cons h

theorem famExt : ∀ f : Nat,
    (∀ s p r t, parseStrF f s = some (p, r) → parseStrF f (s ++ t) = some (p, r ++ t)) ∧
    (∀ s v r t, jsonValF f s = some (v, r) → ExtOk s r t →
      jsonValF f (s ++ t) = some (v, r ++ t)) ∧
    (∀ s l r t, jsonMembersF f s = some (l, r) →
      jsonMembersF f (s ++ t) = some (l, r ++ t)) ∧
    (∀ s l r t, jsonElemsRestF f s = some (l, r) →
      jsonElemsRestF f (s ++ t) = some (l, r ++ t)) := by
  intro f
  induction f with
  | zero =>
    refine ⟨?_, ?_, ?_, ?_⟩
    · intro s p r t h; exact absurd h (by simp [parseStrF])
    · intro s v r t h _; exact absurd h (by simp [jsonValF])
    · intro s l r t h; exact absurd h (by simp [jsonMembersF])
    · intro s l r t h; exact absurd h (by simp [jsonElemsRestF])
  | succ f ih =>
    obtain ⟨ihS, ihV, ihM, ihE⟩ := ih
    refine ⟨?_, ?_, ?_, ?_⟩
    · -- parseStrF
      intro s p r t h
      cases s with
      | nil => rw [parseStrF_nil] at h; exact absurd h (by simp)
      | cons c r0 =>
        simp only [List.cons_append, parseStrF] at h ⊢
        by_cases hq : c = '"'
        · rw [if_pos hq] at h ⊢
          simp only [Option.some.injEq, Prod.mk.injEq] at h ⊢
          exact ⟨h.1, by rw [← h.2]⟩
        · rw [if_neg hq] at h ⊢
          by_cases hb : c = '\\'
          · rw [if_pos hb] at h ⊢
            cases r0 with
            | nil => exact absurd h (by simp)
            | cons e r2 =>
              simp only [List.cons_append]
              dsimp only at h ⊢
              by_cases hu : e = 'u'
              · rw [if_pos hu] at h ⊢
                cases hpu : parseU r2 with
                | none => rw [hpu] at h; exact absurd h (by simp)
                | some pu =>
                  obtain ⟨ch, r3⟩ := pu
                  rw [hpu] at h
                  dsimp only at h
                  cases hps : parseStrF f r3 with
                  | none => rw [hps] at h; exact absurd h (by simp)
                  | some qq =>
                    obtain ⟨qc, qr⟩ := qq
                    rw [parseU_append hpu hps]
                    dsimp only
                    rw [ihS r3 qc qr t hps]
                    simp only [hps, Option.map_some', Option.some.injEq, Prod.mk.injEq] at h
                    simp only [Option.map_some', Option.some.injEq, Prod.mk.injEq]
                    exact ⟨h.1, by rw [← h.2]⟩
              · rw [if_neg hu] at h ⊢
                cases hesc : escMap e with
                | none => rw [hesc] at h; exact absurd h (by simp)
                | some c2 =>
                  rw [hesc] at h
                  dsimp only at h ⊢
                  cases hps : parseStrF f r2 with
                  | none => rw [hps] at h; exact absurd h (by simp)
                  | some qq =>
                    obtain ⟨qc, qr⟩ := qq
                    rw [ihS r2 qc qr t hps]
                    simp only [hps, Option.map_some', Option.some.injEq, Prod.mk.injEq] at h
                    simp only [Option.map_some', Option.some.injEq, Prod.mk.injEq]
                    exact ⟨h.1, by rw [← h.2]⟩
          · rw [if_neg hb] at h ⊢
            by_cases hctl : c.toNat < 0x20
            · rw [if_pos hctl] at h
              exact absurd h (by simp)
            · rw [if_neg hctl] at h ⊢
              cases hps : parseStrF f r0 with
              | none => rw [hps] at h; exact absurd h (by simp)
              | some qq =>
                obtain ⟨qc, qr⟩ := qq
                rw [ihS r0 qc qr t hps]
                simp only [hps, Option.map_some', Option.some.injEq, Prod.mk.injEq] at h
                simp only [Option.map_some', Option.some.injEq, Prod.mk.injEq]
                exact ⟨h.1, by rw [← h.2]⟩
    · -- jsonValF
      intro s v r t h hext
      cases s with
      | nil => rw [jsonValF_nil] at h; exact absurd h (by simp)
      | cons c r0 =>
        simp only [List.cons_append, jsonValF] at h ⊢
        by_cases hq : c = '"'
        · rw [if_pos hq] at h ⊢
          cases hps : parseStrF f r0 with
          | none => rw [hps] at h; exact absurd h (by simp)
          | some kp =>
            obtain ⟨qc, qr⟩ := kp
            rw [ihS r0 qc qr t hps]
            simp only [hps, Option.map_some', Option.some.injEq, Prod.mk.injEq] at h
            simp only [Option.map_some', Option.some.injEq, Prod.mk.injEq]
            exact ⟨h.1, by rw [← h.2]⟩
        · rw [if_neg hq] at h ⊢
          by_cases hob : c = '{'
          · rw [if_pos hob] at h ⊢
            cases hsk : skipWs r0 with
            | nil => rw [hsk] at h; exact absurd h (by simp)
            | cons c2 rr =>
              rw [hsk] at h
              rw [skipWs_append_cons t hsk]
              dsimp only at h ⊢
              by_cases hcb : c2 = '}'
              · rw [if_pos hcb] at h ⊢
                simp only [Option.some.injEq, Prod.mk.injEq] at h ⊢
                exact ⟨h.1, by rw [← h.2]⟩
              · rw [if_neg hcb] at h ⊢
                cases hm : jsonMembersF f (c2 :: rr) with
                | none => rw [hm] at h; exact absurd h (by simp)
                | some mp =>
                  obtain ⟨ml, mr⟩ := mp
                  have hm2 := ihM (c2 :: rr) ml mr t hm
                  rw [List.cons_append] at hm2
                  rw [hm2]
                  simp only [hm, Option.map_some', Option.some.injEq, Prod.mk.injEq] at h
                  simp only [Option.map_some', Option.some.injEq, Prod.mk.injEq]
                  exact ⟨h.1, by rw [← h.2]⟩
          · rw [if_neg hob] at h ⊢
            by_cases hab : c = '['
            · rw [if_pos hab] at h ⊢
              cases hsk : skipWs r0 with
              | nil => rw [hsk] at h; exact absurd h (by simp)
              | cons c2 rr =>
                rw [hsk] at h
                rw [skipWs_append_cons t hsk]
                dsimp only at h ⊢
                by_cases hcb : c2 = ']'
                · rw [if_pos hcb] at h ⊢
                  simp only [Option.some.injEq, Prod.mk.injEq] at h ⊢
                  exact ⟨h.1, by rw [← h.2]⟩
                · rw [if_neg hcb] at h ⊢
                  cases hv1 : jsonValF f (c2 :: rr) with
                  | none => rw [hv1] at h; exact absurd h (by simp)
                  | some q1 =>
                    obtain ⟨v1, vr1⟩ := q1
                    rw [hv1] at h
                    dsimp only [Option.bind] at h
                    cases he1 : jsonElemsRestF f vr1 with
                    | none => rw [he1] at h; exact absurd h (by simp)
                    | some pe =>
                      obtain ⟨el, er⟩ := pe
                      obtain ⟨d, x, hdx, hd'⟩ := jsonElemsRestF_skipWs he1
                      have hsafe1 : SafeRest vr1 := safeRest_of_skipWs hdx
                        (by rcases hd' with h' | h' <;> subst h' <;>
                          exact ⟨by decide, by decide, by decide⟩)
                      have hv1t := ihV (c2 :: rr) v1 vr1 t hv1 (Or.inr (Or.inl hsafe1))
                      rw [List.cons_append] at hv1t
                      rw [hv1t]
                      dsimp only [Option.bind]
                      rw [ihE vr1 el er t he1]
                      simp only [he1, Option.map_some', Option.some.injEq, Prod.mk.injEq] at h
                      simp only [Option.map_some', Option.some.injEq, Prod.mk.injEq]
                      exact ⟨h.1, by rw [← h.2]⟩
            · rw [if_neg hab] at h ⊢
              by_cases htl : c = 't'
              · rw [if_pos htl] at h ⊢
                by_cases hsw : startsWithChars ['r', 'u', 'e'] r0 = true
                · rw [if_pos hsw] at h
                  rw [if_pos (startsWithChars_append_true t hsw)]
                  simp only [Option.some.injEq, Prod.mk.injEq] at h
                  obtain ⟨hv, hr⟩ := h
                  have hlen : 3 ≤ r0.length := by
                    simpa using startsWithChars_le_length hsw
                  rw [← hv, ← hr, drop_append_of_le hlen]
                · rw [if_neg hsw] at h; exact absurd h (by simp)
              · rw [if_neg htl] at h ⊢
                by_cases hfl : c = 'f'
                · rw [if_pos hfl] at h ⊢
                  by_cases hsw : startsWithChars ['a', 'l', 's', 'e'] r0 = true
                  · rw [if_pos hsw] at h
                    rw [if_pos (startsWithChars_append_true t hsw)]
                    simp only [Option.some.injEq, Prod.mk.injEq] at h
                    obtain ⟨hv, hr⟩ := h
                    have hlen : 4 ≤ r0.length := by
                      simpa using startsWithChars_le_length hsw
                    rw [← hv, ← hr, drop_append_of_le hlen]
                  · rw [if_neg hsw] at h; exact absurd h (by simp)
                · rw [if_neg hfl] at h ⊢
                  by_cases hnl : c = 'n'
                  · rw [if_pos hnl] at h ⊢
                    by_cases hsw : startsWithChars ['u', 'l', 'l'] r0 = true
                    · rw [if_pos hsw] at h
                      rw [if_pos (startsWithChars_append_true t hsw)]
                      simp only [Option.some.injEq, Prod.mk.injEq] at h
                      obtain ⟨hv, hr⟩ := h
                      have hlen : 3 ≤ r0.length := by
                        simpa using startsWithChars_le_length hsw
                      rw [← hv, ← hr, drop_append_of_le hlen]
                    · rw [if_neg hsw] at h; exact absurd h (by simp)
                  · rw [if_neg hnl] at h ⊢
                    cases hpn : parseNum (c :: r0) with
                    | none =>
                      rw [hpn] at h
                      dsimp only at h
                      by_cases hcN : c = 'N'
                      · subst hcN
                        rw [if_pos rfl] at h
                        have hpn2 : parseNum ('N' :: (r0 ++ t)) = Option.none := by
                          simp [parseNum, parseIntPart]
                        rw [hpn2]
                        dsimp only
                        rw [if_pos rfl]
                        by_cases hsw : startsWithChars ['a', 'N'] r0 = true
                        · rw [if_pos hsw] at h
                          rw [if_pos (startsWithChars_append_true t hsw)]
                          simp only [Option.some.injEq, Prod.mk.injEq] at h
                          obtain ⟨hv, hr⟩ := h
                          have hlen : 2 ≤ r0.length := by
                            simpa using startsWithChars_le_length hsw
                          rw [← hv, ← hr, drop_append_of_le hlen]
                        · rw [if_neg hsw] at h
                          exact absurd h (by simp)
                      · rw [if_neg hcN] at h
                        by_cases hcI : c = 'I'
                        · subst hcI
                          rw [if_pos rfl] at h
                          have hpn2 : parseNum ('I' :: (r0 ++ t)) = Option.none := by
                            simp [parseNum, parseIntPart]
                          rw [hpn2]
                          dsimp only
                          rw [if_neg hcN, if_pos rfl]
                          by_cases hsw :
                              startsWithChars ['n', 'f', 'i', 'n', 'i', 't', 'y'] r0 = true
                          · rw [if_pos hsw] at h
                            rw [if_pos (startsWithChars_append_true t hsw)]
                            simp only [Option.some.injEq, Prod.mk.injEq] at h
                            obtain ⟨hv, hr⟩ := h
                            have hlen : 7 ≤ r0.length := by
                              simpa using startsWithChars_le_length hsw
                            rw [← hv, ← hr, drop_append_of_le hlen]
                          · rw [if_neg hsw] at h
                            exact absurd h (by simp)
                        · rw [if_neg hcI] at h
                          by_cases hcM : c = '-'
                          · subst hcM
                            rw [if_pos rfl] at h
                            by_cases hsw :
                                startsWithChars ['I', 'n', 'f', 'i', 'n', 'i', 't', 'y'] r0
                                  = true
                            · rw [if_pos hsw] at h
                              obtain ⟨r0', hr0⟩ : ∃ r0', r0 = 'I' :: r0' := by
                                cases r0 with
                                | nil => simp [startsWithChars] at hsw
                                | cons a as =>
                                  simp only [startsWithChars, Bool.and_eq_true,
                                    beq_iff_eq] at hsw
                                  exact ⟨as, by rw [← hsw.1]⟩
                              have hpn2 : parseNum ('-' :: (r0 ++ t)) = Option.none := by
                                rw [hr0]
                                simp [parseNum, parseIntPart]
                              rw [hpn2]
                              dsimp only
                              rw [if_neg hcN, if_neg hcI, if_pos rfl]
                              rw [if_pos (startsWithChars_append_true t hsw)]
                              simp only [Option.some.injEq, Prod.mk.injEq] at h
                              obtain ⟨hv, hr⟩ := h
                              have hlen : 8 ≤ r0.length := by
                                simpa using startsWithChars_le_length hsw
                              rw [← hv, ← hr, drop_append_of_le hlen]
                            · rw [if_neg hsw] at h
                              exact absurd h (by simp)
                          · rw [if_neg hcM] at h
                            exact absurd h (by simp)
                    | some pq =>
                      obtain ⟨lex, rn⟩ := pq
                      rw [hpn] at h
                      simp only [Option.map_some', Option.some.injEq, Prod.mk.injEq] at h
                      obtain ⟨hv, hr⟩ := h
                      subst hr
                      have hext' : NonNumHead (c :: r0) ∨ SafeRest rn ∨
                          (rn = [] ∧ noNumExt t) := hext
                      have hnn : ¬ NonNumHead (c :: r0) := by
                        intro hnh
                        obtain ⟨c', cs', hc', hd⟩ :
                            ∃ c' cs', (c :: r0 = c' :: cs') ∧
                              (c' = '"' ∨ c' = '{' ∨ c' = '[' ∨ c' = 't' ∨ c' = 'f' ∨
                                c' = 'n') := hnh
                        injection hc' with h1 h2
                        subst h1
                        rcases hd with h' | h' | h' | h' | h' | h'
                        · exact hq h'
                        · exact hob h'
                        · exact hab h'
                        · exact htl h'
                        · exact hfl h'
                        · exact hnl h'
                      have hnil : rn = [] → noNumExt t := by
                        intro hrnil
                        rcases hext' with hnh | hsr | ⟨_, hnx⟩
                        · exact absurd hnh hnn
                        · obtain ⟨c', cs', hc', _⟩ :
                              ∃ c' cs', (rn = c' :: cs') ∧ c' ≠ '.' ∧ c' ≠ 'e' ∧
                                c' ≠ 'E' := hsr
                          rw [hrnil] at hc'
                          exact absurd hc' (by simp)
                        · exact hnx
                      have hhead : ∀ c' cs', rn = c' :: cs' →
                          (c' ≠ '.' ∧ c' ≠ 'e' ∧ c' ≠ 'E') := by
                        intro c' cs' hcons
                        rcases hext' with hnh | hsr | ⟨hre, _⟩
                        · exact absurd hnh hnn
                        · obtain ⟨c'', cs'', hc'', hd1, hd2, hd3⟩ :
                              ∃ c'' cs'', (rn = c'' :: cs'') ∧ c'' ≠ '.' ∧ c'' ≠ 'e' ∧
                                c'' ≠ 'E' := hsr
                          rw [hcons] at hc''
                          injection hc'' with h1 h2
                          subst h1
                          exact ⟨hd1, hd2, hd3⟩
                        · rw [hre] at hcons
                          exact absurd hcons (by simp)
                      have hnum := parseNum_append t hpn hnil hhead
                      rw [List.cons_append] at hnum
                      rw [hnum]
                      simp only [Option.map_some', Option.some.injEq, Prod.mk.injEq]
                      exact ⟨hv, trivial⟩
    · -- jsonMembersF
      intro s l r t h
      cases s with
      | nil => rw [jsonMembersF_nil] at h; exact absurd h (by simp)
      | cons c r0 =>
        simp only [List.cons_append, jsonMembersF] at h ⊢
        by_cases hq : c = '"'
        · rw [if_pos hq] at h ⊢
          cases hps : parseStrF f r0 with
          | none => rw [hps] at h; exact absurd h (by simp)
          | some kp =>
            obtain ⟨kc, kr⟩ := kp
            rw [hps] at h
            rw [ihS r0 kc kr t hps]
            dsimp only [Option.bind] at h ⊢
            cases hsk : skipWs kr with
            | nil => rw [hsk] at h; exact absurd h (by simp)
            | cons c2 rr =>
              rw [hsk] at h
              rw [skipWs_append_cons t hsk]
              dsimp only at h ⊢
              by_cases hc2 : c2 = ':'
              · rw [if_pos hc2] at h ⊢
                cases hv1 : jsonValF f (skipWs rr) with
                | none => rw [hv1] at h; exact absurd h (by simp)
                | some vp =>
                  obtain ⟨vv, vr⟩ := vp
                  rw [hv1] at h
                  dsimp only [Option.bind] at h
                  obtain ⟨d2, x2, hdx2⟩ : ∃ d2 x2, skipWs rr = d2 :: x2 := by
                    cases hsk4 : skipWs rr with
                    | nil => rw [hsk4, jsonValF_nil] at hv1; exact absurd hv1 (by simp)
                    | cons d2 x2 => exact ⟨d2, x2, rfl⟩
                  have hskt : skipWs (rr ++ t) = skipWs rr ++ t := by
                    rw [skipWs_append_cons t hdx2, hdx2, List.cons_append]
                  cases hsk3 : skipWs vr with
                  | nil => rw [hsk3] at h; exact absurd h (by simp)
                  | cons c3 r4 =>
                    rw [hsk3] at h
                    dsimp only at h
                    by_cases hc3 : c3 = '}'
                    · rw [if_pos hc3] at h
                      have hsafe : SafeRest vr := safeRest_of_skipWs hsk3
                        (by subst hc3; exact ⟨by decide, by decide, by decide⟩)
                      rw [hskt, ihV (skipWs rr) vv vr t hv1 (Or.inr (Or.inl hsafe))]
                      dsimp only [Option.bind]
                      rw [skipWs_append_cons t hsk3]
                      dsimp only
                      rw [if_pos hc3]
                      simp only [Option.some.injEq, Prod.mk.injEq] at h ⊢
                      exact ⟨h.1, by rw [← h.2]⟩
                    · rw [if_neg hc3] at h
                      by_cases hc3' : c3 = ','
                      · rw [if_pos hc3'] at h
                        have hsafe : SafeRest vr := safeRest_of_skipWs hsk3
                          (by subst hc3'; exact ⟨by decide, by decide, by decide⟩)
                        cases hmq : jsonMembersF f (skipWs r4) with
                        | none => rw [hmq] at h; exact absurd h (by simp)
                        | some mp =>
                          obtain ⟨ml, mr⟩ := mp
                          obtain ⟨d3, x3, hdx3⟩ : ∃ d3 x3, skipWs r4 = d3 :: x3 := by
                            cases hsk5 : skipWs r4 with
                            | nil =>
                              rw [hsk5, jsonMembersF_nil] at hmq
                              exact absurd hmq (by simp)
                            | cons d3 x3 => exact ⟨d3, x3, rfl⟩
                          have hskt2 : skipWs (r4 ++ t) = skipWs r4 ++ t := by
                            rw [skipWs_append_cons t hdx3, hdx3, List.cons_append]
                          rw [hskt, ihV (skipWs rr) vv vr t hv1 (Or.inr (Or.inl hsafe))]
                          dsimp only [Option.bind]
                          rw [skipWs_append_cons t hsk3]
                          dsimp only
                          rw [if_neg hc3, if_pos hc3']
                          rw [hskt2, ihM (skipWs r4) ml mr t hmq]
                          simp only [hmq, Option.map_some', Option.some.injEq,
                            Prod.mk.injEq] at h
                          simp only [Option.map_some', Option.some.injEq, Prod.mk.injEq]
                          exact ⟨h.1, by rw [← h.2]⟩
                      · rw [if_neg hc3'] at h; exact absurd h (by simp)
              · rw [if_neg hc2] at h; exact absurd h (by simp)
        · rw [if_neg hq] at h; exact absurd h (by simp)
    · -- jsonElemsRestF
      intro s l r t h
      simp only [jsonElemsRestF] at h ⊢
      cases hsk : skipWs s with
      | nil => rw [hsk] at h; exact absurd h (by simp)
      | cons c rr =>
        rw [hsk] at h
        rw [skipWs_append_cons t hsk]
        dsimp only at h ⊢
        by_cases hc : c = ']'
        · rw [if_pos hc] at h ⊢
          simp only [Option.some.injEq, Prod.mk.injEq] at h ⊢
          exact ⟨h.1, by rw [← h.2]⟩
        · rw [if_neg hc] at h ⊢
          by_cases hc' : c = ','
          · rw [if_pos hc'] at h ⊢
            cases hv1 : jsonValF f (skipWs rr) with
            | none => rw [hv1] at h; exact absurd h (by simp)
            | some vp =>
              obtain ⟨vv, vr⟩ := vp
              rw [hv1] at h
              dsimp only [Option.bind] at h
              cases he1 : jsonElemsRestF f vr with
              | none => rw [he1] at h; exact absurd h (by simp)
              | some pe =>
                obtain ⟨el, er⟩ := pe
                obtain ⟨d, x, hdx, hd'⟩ := jsonElemsRestF_skipWs he1
                have hsafe : SafeRest vr := safeRest_of_skipWs hdx
                  (by rcases hd' with h' | h' <;> subst h' <;>
                    exact ⟨by decide, by decide, by decide⟩)
                obtain ⟨d2, x2, hdx2⟩ : ∃ d2 x2, skipWs rr = d2 :: x2 := by
                  cases hsk4 : skipWs rr with
                  | nil => rw [hsk4, jsonValF_nil] at hv1; exact absurd hv1 (by simp)
                  | cons d2 x2 => exact ⟨d2, x2, rfl⟩
                have hskt : skipWs (rr ++ t) = skipWs rr ++ t := by
                  rw [skipWs_append_cons t hdx2, hdx2, List.cons_append]
                rw [hskt]
                rw [ihV (skipWs rr) vv vr t hv1 (Or.inr (Or.inl hsafe))]
                dsimp only [Option.bind]
                rw [ihE vr el er t he1]
                simp only [he1, Option.map_some', Option.some.injEq, Prod.mk.injEq] at h
                simp only [Option.map_some', Option.some.injEq, Prod.mk.injEq]
                exact ⟨h.1, by rw [← h.2]⟩
          · rw [if_neg hc'] at h; exact absurd h (by simp)

theorem famMono : ∀ f f' : Nat, f ≤ f' →
    (∀ s p r, parseStrF f s = some (p, r) → parseStrF f' s = some (p, r)) ∧
    (∀ s v r, jsonValF f s = some (v, r) → jsonValF f' s = some (v, r)) ∧
    (∀ s l r, jsonMembersF f s = some (l, r) → jsonMembersF f' s = some (l, r)) ∧
    (∀ s l r, jsonElemsRestF f s = some (l, r) → jsonElemsRestF f' s = some (l, r)) := by
  intro f
  induction f with
  | zero =>
    intro f' _
    refine ⟨?_, ?_, ?_, ?_⟩ <;>
      (intro s a r h
       exact absurd h (by simp [parseStrF, jsonValF, jsonMembersF, jsonElemsRestF]))
  | succ f ih =>
    intro f' hf
    obtain ⟨f2, rfl⟩ : ∃ f2, f' = f2 + 1 := by
      cases f' with
      | zero => omega
      | succ f2 => exact ⟨f2, rfl⟩
    have hf2 : f ≤ f2 := by omega
    obtain ⟨ihS, ihV, ihM, ihE⟩ := ih f2 hf2
    refine ⟨?_, ?_, ?_, ?_⟩
    · -- parseStrF
      intro s p r h
      cases s with
      | nil => rw [parseStrF_nil] at h; exact absurd h (by simp)
      | cons c r0 =>
        simp only [parseStrF] at h ⊢
        by_cases hq : c = '"'
        · rw [if_pos hq] at h ⊢; exact h
        · rw [if_neg hq] at h ⊢
          by_cases hb : c = '\\'
          · rw [if_pos hb] at h ⊢
            cases r0 with
            | nil => exact absurd h (by simp)
            | cons e r2 =>
              dsimp only at h ⊢
              by_cases hu : e = 'u'
              · rw [if_pos hu] at h ⊢
                cases hpu : parseU r2 with
                | none => rw [hpu] at h; exact absurd h (by simp)
                | some pu =>
                  obtain ⟨ch, r3⟩ := pu
                  rw [hpu] at h
                  dsimp only at h ⊢
                  cases hps : parseStrF f r3 with
                  | none => rw [hps] at h; exact absurd h (by simp)
                  | some qq =>
                    obtain ⟨qc, qr⟩ := qq
                    rw [ihS r3 qc qr hps]
                    simp only [hps, Option.map_some'] at h
                    simpa using h
              · rw [if_neg hu] at h ⊢
                cases hesc : escMap e with
                | none => rw [hesc] at h; exact absurd h (by simp)
                | some c2 =>
                  rw [hesc] at h
                  dsimp only at h ⊢
                  cases hps : parseStrF f r2 with
                  | none => rw [hps] at h; exact absurd h (by simp)
                  | some qq =>
                    obtain ⟨qc, qr⟩ := qq
                    rw [ihS r2 qc qr hps]
                    simp only [hps, Option.map_some'] at h
                    simpa using h
          · rw [if_neg hb] at h ⊢
            by_cases hctl : c.toNat < 0x20
            · rw [if_pos hctl] at h; exact absurd h (by simp)
            · rw [if_neg hctl] at h ⊢
              cases hps : parseStrF f r0 with
              | none => rw [hps] at h; exact absurd h (by simp)
              | some qq =>
                obtain ⟨qc, qr⟩ := qq
                rw [ihS r0 qc qr hps]
                simp only [hps, Option.map_some'] at h
                simpa using h
    · -- jsonValF
      intro s v r h
      cases s with
      | nil => rw [jsonValF_nil] at h; exact absurd h (by simp)
      | cons c r0 =>
        simp only [jsonValF] at h ⊢
        by_cases hq : c = '"'
        · rw [if_pos hq] at h ⊢
          cases hps : parseStrF f r0 with
          | none => rw [hps] at h; exact absurd h (by simp)
          | some kp =>
            obtain ⟨qc, qr⟩ := kp
            rw [ihS r0 qc qr hps]
            simp only [hps, Option.map_some'] at h
            simpa using h
        · rw [if_neg hq] at h ⊢
          by_cases hob : c = '{'
          · rw [if_pos hob] at h ⊢
            cases hsk : skipWs r0 with
            | nil => rw [hsk] at h; exact absurd h (by simp)
            | cons c2 rr =>
              rw [hsk] at h
              dsimp only at h ⊢
              by_cases hcb : c2 = '}'
              · rw [if_pos hcb] at h ⊢; exact h
              · rw [if_neg hcb] at h ⊢
                cases hm : jsonMembersF f (c2 :: rr) with
                | none => rw [hm] at h; exact absurd h (by simp)
                | some mp =>
                  obtain ⟨ml, mr⟩ := mp
                  rw [ihM (c2 :: rr) ml mr hm]
                  simp only [hm, Option.map_some'] at h
                  simpa using h
          · rw [if_neg hob] at h ⊢
            by_cases hab : c = '['
            · rw [if_pos hab] at h ⊢
              cases hsk : skipWs r0 with
              | nil => rw [hsk] at h; exact absurd h (by simp)
              | cons c2 rr =>
                rw [hsk] at h
                dsimp only at h ⊢
                by_cases hcb : c2 = ']'
                · rw [if_pos hcb] at h ⊢; exact h
                · rw [if_neg hcb] at h ⊢
                  cases hv1 : jsonValF f (c2 :: rr) with
                  | none => rw [hv1] at h; exact absurd h (by simp)
                  | some q1 =>
                    obtain ⟨v1, vr1⟩ := q1
                    rw [hv1] at h
                    dsimp only [Option.bind] at h
                    rw [ihV (c2 :: rr) v1 vr1 hv1]
                    dsimp only [Option.bind]
                    cases he1 : jsonElemsRestF f vr1 with
                    | none => rw [he1] at h; exact absurd h (by simp)
                    | some pe =>
                      obtain ⟨el, er⟩ := pe
                      rw [ihE vr1 el er he1]
                      simp only [he1, Option.map_some'] at h
                      simpa using h
            · rw [if_neg hab] at h ⊢
              by_cases htl : c = 't'
              · rw [if_pos htl] at h ⊢; exact h
              · rw [if_neg htl] at h ⊢
                by_cases hfl : c = 'f'
                · rw [if_pos hfl] at h ⊢; exact h
                · rw [if_neg hfl] at h ⊢
                  by_cases hnl : c = 'n'
                  · rw [if_pos hnl] at h ⊢; exact h
                  · rw [if_neg hnl] at h ⊢; exact h
    · -- jsonMembersF
      intro s l r h
      cases s with
      | nil => rw [jsonMembersF_nil] at h; exact absurd h (by simp)
      | cons c r0 =>
        simp only [jsonMembersF] at h ⊢
        by_cases hq : c = '"'
        · rw [if_pos hq] at h ⊢
          cases hps : parseStrF f r0 with
          | none => rw [hps] at h; exact absurd h (by simp)
          | some kp =>
            obtain ⟨kc, kr⟩ := kp
            rw [hps] at h
            rw [ihS r0 kc kr hps]
            dsimp only [Option.bind] at h ⊢
            cases hsk : skipWs kr with
            | nil => rw [hsk] at h; exact absurd h (by simp)
            | cons c2 rr =>
              rw [hsk] at h
              dsimp only at h ⊢
              by_cases hc2 : c2 = ':'
              · rw [if_pos hc2] at h ⊢
                cases hv1 : jsonValF f (skipWs rr) with
                | none => rw [hv1] at h; exact absurd h (by simp)
                | some vp =>
                  obtain ⟨vv, vr⟩ := vp
                  rw [hv1] at h
                  rw [ihV (skipWs rr) vv vr hv1]
                  dsimp only [Option.bind] at h ⊢
                  cases hsk3 : skipWs vr with
                  | nil => rw [hsk3] at h; exact absurd h (by simp)
                  | cons c3 r4 =>
                    rw [hsk3] at h
                    dsimp only at h ⊢
                    by_cases hc3 : c3 = '}'
                    · rw [if_pos hc3] at h ⊢; exact h
                    · rw [if_neg hc3] at h ⊢
                      by_cases hc3' : c3 = ','
                      · rw [if_pos hc3'] at h ⊢
                        cases hmq : jsonMembersF f (skipWs r4) with
                        | none => rw [hmq] at h; exact absurd h (by simp)
                        | some mp =>
                          obtain ⟨ml, mr⟩ := mp
                          rw [ihM (skipWs r4) ml mr hmq]
                          simp only [hmq, Option.map_some'] at h
                          simpa using h
                      · rw [if_neg hc3'] at h; exact absurd h (by simp)
              · rw [if_neg hc2] at h; exact absurd h (by simp)
        · rw [if_neg hq] at h; exact absurd h (by simp)
    · -- jsonElemsRestF
      intro s l r h
      simp only [jsonElemsRestF] at h ⊢
      cases hsk : skipWs s with
      | nil => rw [hsk] at h; exact absurd h (by simp)
      | cons c rr =>
        rw [hsk] at h
        dsimp only at h ⊢
        by_cases hc : c = ']'
        · rw [if_pos hc] at h ⊢; exact h
        · rw [if_neg hc] at h ⊢
          by_cases hc' : c = ','
          · rw [if_pos hc'] at h ⊢
            cases hv1 : jsonValF f (skipWs rr) with
            | none => rw [hv1] at h; exact absurd h (by simp)
            | some vp =>
              obtain ⟨vv, vr⟩ := vp
              rw [hv1] at h
              rw [ihV (skipWs rr) vv vr hv1]
              dsimp only [Option.bind] at h ⊢
              cases he1 : jsonElemsRestF f vr with
              | none => rw [he1] at h; exact absurd h (by simp)
              | some pe =>
                obtain ⟨el, er⟩ := pe
                rw [ihE vr el er he1]
                simp only [he1, Option.map_some'] at h
                simpa using h
          · rw [if_neg hc'] at h; exact absurd h (by simp)

theorem rawDecode_append {c : List Char} {v : JValue} (R : List Char)
    (h : rawDecode c = some (v, []))
    (hok : NonNumHead c ∨ noNumExt R) :
    rawDecode (c ++ R) = some (v, R) := by
  have hext : ExtOk c [] R := by
    rcases hok with h' | h'
    · exact Or.inl h'
    · exact Or.inr (Or.inr ⟨rfl, h'⟩)
  have h1 := (famExt (c.length + 1)).2.1 c v [] R h hext
  have h2 := (famMono (c.length + 1) ((c ++ R).length + 1)
    (by simp only [List.length_append]; omega)).2.1 (c ++ R) v ([] ++ R) h1
  simpa [rawDecode] using h2

theorem rawDecode_head {c : List Char} {v : JValue} {r : List Char}
    (h : rawDecode c = some (v, r)) : ∃ c0 cs0, c = c0 :: cs0 ∧ pyIsSpace c0 = false := by
  cases c with
  | nil => rw [rawDecode, jsonValF_nil] at h; exact absurd h (by simp)
  | cons c0 cs0 =>
    refine ⟨c0, cs0, rfl, ?_⟩
    by_contra hps
    rw [Bool.not_eq_false] at hps
    have hd : c0 = ' ' ∨ c0 = '\t' ∨ c0 = '\n' ∨ c0 = '\r' ∨ c0 = '\x0b' ∨ c0 = '\x0c' := by
      simpa [pyIsSpace, Bool.or_eq_true, beq_iff_eq, or_assoc] using hps
    rcases hd with h' | h' | h' | h' | h' | h' <;> subst h' <;>
      simp [rawDecode, jsonValF, parseNum, parseIntPart] at h

theorem dropWhile_nil_of_wsOnly {w : List Char} (hw : wsOnly w = true) :
    w.dropWhile pyIsSpace = [] := by
  rw [List.dropWhile_eq_nil_iff]
  intro x hx
  simp only [wsOnly, List.all_eq_true] at hw
  exact hw x hx

theorem noNumExt_of_ws_head {w : List Char} (rest : List Char)
    (hw : wsOnly w = true) (hne : w ≠ []) : noNumExt (w ++ rest) := by
  cases w with
  | nil => exact absurd rfl hne
  | cons d ds =>
    intro c cs hcc
    injection hcc with h1 h2
    subst h1
    have hd : pyIsSpace d = true := by
      simp only [wsOnly, List.all_cons, Bool.and_eq_true] at hw
      exact hw.1
    have hd' : d = ' ' ∨ d = '\t' ∨ d = '\n' ∨ d = '\r' ∨ d = '\x0b' ∨ d = '\x0c' := by
      simpa [pyIsSpace, Bool.or_eq_true, beq_iff_eq, or_assoc] using hd
    rcases hd' with h' | h' | h' | h' | h' | h' <;> subst h' <;>
      exact ⟨by decide, by decide, by decide, by decide, by decide, by decide⟩

theorem scanLoop_nil (f : Nat) : scanLoop f [] = [] := by
  cases f <;> rfl

theorem scanLoop_ws_eq {w : List Char} (x : List Char) (f : Nat) (hw : wsOnly w = true) :
    scanLoop f (w ++ x) = scanLoop f x := by
  cases f with
  | zero => rfl
  | succ f' =>
    simp only [scanLoop]
    rw [List.dropWhile_append, dropWhile_nil_of_wsOnly hw]
    simp

theorem length_le_joinPieces {ps : List ((List Char × JValue) × List Char)}
    (h : ∀ p ∈ ps, p.1.1 ≠ []) : ps.length ≤ (joinPieces ps).length := by
  induction ps with
  | nil => simp [joinPieces]
  | cons p rest ih =>
    have hp := h p (by simp)
    have hr := ih (fun q hq => h q (by simp [hq]))
    have hj : joinPieces (p :: rest) = (p.1.1 ++ p.2) ++ joinPieces rest := by
      simp [joinPieces]
    rw [hj]
    simp only [List.length_append, List.length_cons]
    have h1 : 1 ≤ p.1.1.length := by
      cases hc : p.1.1 with
      | nil => exact absurd hc hp
      | cons a as => simp
    omega

theorem pyStrip_wsOnly {w : List Char} (hw : wsOnly w = true) : pyStrip w = [] := by
  simp [pyStrip, dropWhile_nil_of_wsOnly hw]

theorem parse_raw_body_wsOnly {w : List Char} (hw : wsOnly w = true) :
    parse_raw_body w = [] := by
  simp [parse_raw_body, pyStrip_wsOnly hw]

theorem pyStrip_core {w0 X w : List Char} {x0 xl : Char} {X' : List Char}
    (hw0 : wsOnly w0 = true) (hw : wsOnly w = true)
    (hX : X = x0 :: X') (h0 : pyIsSpace x0 = false)
    (hl : X.getLast? = some xl) (hle : pyIsSpace xl = false) :
    pyStrip (w0 ++ (X ++ w)) = X := by
  have h1 : (w0 ++ (X ++ w)).dropWhile pyIsSpace = X ++ w := by
    rw [List.dropWhile_append, dropWhile_nil_of_wsOnly hw0]
    simp only [List.isEmpty_nil, if_true]
    rw [hX, List.cons_append, List.dropWhile_cons, if_neg (by simp [h0])]
  have hwrev : wsOnly w.reverse = true := by
    simpa [wsOnly, List.all_reverse] using hw
  have hXrev : X.reverse.head? = some xl := by
    rw [List.head?_reverse]; exact hl
  have h2 : (X ++ w).reverse.dropWhile pyIsSpace = X.reverse := by
    rw [List.reverse_append, List.dropWhile_append, dropWhile_nil_of_wsOnly hwrev]
    simp only [List.isEmpty_nil, if_true]
    cases hrev : X.reverse with
    | nil => rfl
    | cons y ys =>
      rw [hrev] at hXrev
      simp only [List.head?_cons, Option.some.injEq] at hXrev
      subst hXrev
      rw [List.dropWhile_cons, if_neg (by simp [hle])]
  rw [pyStrip, h1, h2, List.reverse_reverse]

theorem scanLoop_join : ∀ (ps : List ((List Char × JValue) × List Char)) (t : List Char)
    (f : Nat),
    (∀ p ∈ ps, rawDecode p.1.1 = some (p.1.2, []) ∧ wsOnly p.2 = true ∧
      (NonNumHead p.1.1 ∨ p.2 ≠ [])) →
    (t.dropWhile pyIsSpace = [] ∨ rawDecode (t.dropWhile pyIsSpace) = Option.none) →
    ps.length < f →
    scanLoop f (joinPieces ps ++ t) = ps.map (fun p => p.1.2) := by
  intro ps
  induction ps with
  | nil =>
    intro t f hps ht hlen
    cases f with
    | zero => exact absurd hlen (by simp)
    | succ f' =>
      have hjoin : joinPieces ([] : List ((List Char × JValue) × List Char)) ++ t = t := by
        simp [joinPieces]
      rw [hjoin]
      simp only [scanLoop, List.map_nil]
      cases hd : t.dropWhile pyIsSpace with
      | nil => rfl
      | cons c cs =>
        rcases ht with h' | h'
        · rw [hd] at h'; exact absurd h' (by simp)
        · rw [hd] at h'
          dsimp only
          rw [h']
  | cons p ps ih =>
    obtain ⟨⟨c, v⟩, w⟩ := p
    intro t f hps ht hlen
    obtain ⟨hdec, hwsw, hcond⟩ := hps _ (List.mem_cons_self _ _)
    have hps' := fun q hq => hps q (List.mem_cons_of_mem _ hq)
    cases f with
    | zero => exact absurd hlen (by simp)
    | succ f' =>
      have hjoin : joinPieces (((c, v), w) :: ps) ++ t = c ++ (w ++ (joinPieces ps ++ t)) := by
        simp [joinPieces]
      rw [hjoin]
      obtain ⟨c0, cs0, hc, hps0⟩ := rawDecode_head hdec
      subst hc
      simp only [scanLoop]
      have hdw : ((c0 :: cs0) ++ (w ++ (joinPieces ps ++ t))).dropWhile pyIsSpace
          = c0 :: (cs0 ++ (w ++ (joinPieces ps ++ t))) := by
        rw [List.cons_append, List.dropWhile_cons, if_neg (by simp [hps0])]
      rw [hdw]
      dsimp only
      have hR : NonNumHead (c0 :: cs0) ∨ noNumExt (w ++ (joinPieces ps ++ t)) := by
        rcases hcond with h' | h'
        · exact Or.inl h'
        · exact Or.inr (noNumExt_of_ws_head (joinPieces ps ++ t) hwsw h')
      have hext := rawDecode_append (w ++ (joinPieces ps ++ t)) hdec hR
      rw [List.cons_append] at hext
      rw [hext]
      dsimp only
      simp only [List.map_cons]
      rw [scanLoop_ws_eq (joinPieces ps ++ t) f' hwsw]
      rw [ih t f' hps' ht (by simp only [List.length_cons] at hlen; omega)]

theorem parse_raw_body_join
    (w0 : List Char) (ps : List ((List Char × JValue) × List Char)) (t w : List Char)
    (hw0 : wsOnly w0 = true) (hw : wsOnly w = true)
    (hps : ∀ p ∈ ps, rawDecode p.1.1 = some (p.1.2, []) ∧ wsOnly p.2 = true ∧
      (NonNumHead p.1.1 ∨ p.2 ≠ []))
    (hXhead : ∃ x0 X', joinPieces ps ++ t = x0 :: X' ∧ pyIsSpace x0 = false)
    (hXlast : ∀ xl, (joinPieces ps ++ t).getLast? = some xl → pyIsSpace xl = false)
    (ht : t.dropWhile pyIsSpace = [] ∨ rawDecode (t.dropWhile pyIsSpace) = Option.none) :
    parse_raw_body (w0 ++ ((joinPieces ps ++ t) ++ w)) = ps.map (fun p => p.1.2) := by
  obtain ⟨x0, X', hXc, h0⟩ := hXhead
  obtain ⟨xl, hxl⟩ : ∃ xl, (joinPieces ps ++ t).getLast? = some xl := by
    rw [hXc]
    have h1 : (x0 :: X').getLast?.isSome = true := by
      rw [List.getLast?_isSome]; simp
    exact Option.isSome_iff_exists.mp h1
  have hstrip : pyStrip (w0 ++ ((joinPieces ps ++ t) ++ w)) = joinPieces ps ++ t :=
    pyStrip_core hw0 hw hXc h0 hxl (hXlast xl hxl)
  simp only [parse_raw_body]
  rw [hstrip]
  have hne : ¬((joinPieces ps ++ t).isEmpty = true) := by rw [hXc]; simp
  rw [if_neg hne]
  refine scanLoop_join ps t _ hps ht ?_
  have hchunks : ∀ p ∈ ps, p.1.1 ≠ [] := by
    intro p hp
    obtain ⟨hdec, _, _⟩ := hps p hp
    obtain ⟨c0, cs0, hc, _⟩ := rawDecode_head hdec
    rw [hc]; simp
  have hle := length_le_joinPieces hchunks
  simp only [List.length_append]
  omega

/-- C1 (amended): for a body made of well-formed JSON object chunks, each
followed by arbitrary (possibly empty) run of whitespace, with arbitrary
leading whitespace, `parse_raw_body` returns exactly the decoded objects in
input order; an empty or whitespace-only body yields the empty list without
error.  (The original claim over arbitrary JSON values with zero separator
fails — see the counterexample — because two adjacent number lexemes fuse.) -/
theorem C1_multi_value_parse :
    (∀ w, wsOnly w = true → parse_raw_body w = []) ∧
    (∀ w0 ps, wsOnly w0 = true →
      (∀ p ∈ ps, ObjChunk p.1.1 p.1.2 ∧ wsOnly p.2 = true) →
      parse_raw_body (w0 ++ joinPieces ps) = ps.map (fun p => p.1.2)) := by
  constructor
  · exact fun w hw => parse_raw_body_wsOnly hw
  · intro w0 ps hw0 hps
    rcases List.eq_nil_or_concat ps with rfl | ⟨qs, q, rfl⟩
    · have hj : w0 ++ joinPieces [] = w0 := by simp [joinPieces]
      rw [hj, parse_raw_body_wsOnly hw0]
      simp
    · obtain ⟨⟨cl, vl⟩, wl⟩ := q
      simp only [List.concat_eq_append] at hps ⊢
      obtain ⟨⟨hqh, hql, hqd⟩, hqw⟩ := hps ((cl, vl), wl) (by simp)
      have hrw : w0 ++ joinPieces (qs ++ [((cl, vl), wl)])
          = w0 ++ ((joinPieces (qs ++ [((cl, vl), ([] : List Char))]) ++ []) ++ wl) := by
        simp [joinPieces]
      rw [hrw]
      have hmap : (qs ++ [((cl, vl), wl)]).map (fun p => p.1.2)
          = (qs ++ [((cl, vl), ([] : List Char))]).map (fun p => p.1.2) := by
        simp
      rw [hmap]
      refine parse_raw_body_join w0 (qs ++ [((cl, vl), [])]) [] wl hw0 hqw ?_ ?_ ?_
        (Or.inl rfl)
      · intro p hp
        rcases List.mem_append.mp hp with hp' | hp'
        · obtain ⟨⟨hh, hlst, hdec⟩, hws⟩ := hps p (List.mem_append_left _ hp')
          refine ⟨hdec, hws, Or.inl ?_⟩
          cases hcp : p.1.1 with
          | nil => rw [hcp] at hh; simp at hh
          | cons a as =>
            rw [hcp] at hh
            simp only [List.head?_cons, Option.some.injEq] at hh
            exact ⟨a, as, rfl, Or.inr (Or.inl hh)⟩
        · have hp2 : p = ((cl, vl), []) := by simpa using hp'
          subst hp2
          refine ⟨hqd, by simp [wsOnly], Or.inl ?_⟩
          cases hcp : cl with
          | nil => rw [hcp] at hqh; simp at hqh
          | cons a as =>
            rw [hcp] at hqh
            simp only [List.head?_cons, Option.some.injEq] at hqh
            exact ⟨a, as, rfl, Or.inr (Or.inl hqh)⟩
      · cases qs with
        | nil =>
          cases hcp : cl with
          | nil => rw [hcp] at hqh; simp at hqh
          | cons a as =>
            rw [hcp] at hqh
            simp only [List.head?_cons, Option.some.injEq] at hqh
            subst hqh
            exact ⟨'{', as, by simp [joinPieces, hcp], by decide⟩
        | cons p1 rest =>
          obtain ⟨⟨hh1, _, _⟩, _⟩ := hps p1 (by simp)
          cases hcp : p1.1.1 with
          | nil => rw [hcp] at hh1; simp at hh1
          | cons a as =>
            rw [hcp] at hh1
            simp only [List.head?_cons, Option.some.injEq] at hh1
            subst hh1
            exact ⟨'{', as ++ (p1.2 ++ joinPieces (rest ++ [((cl, vl), [])])),
              by simp [joinPieces, hcp], by decide⟩
      · intro xl hxl
        have h1 : cl.reverse.head? = some '}' := by rw [List.head?_reverse]; exact hql
        cases hcr : cl.reverse with
        | nil => rw [hcr] at h1; simp at h1
        | cons b bs =>
          rw [hcr] at h1
          simp only [List.head?_cons, Option.some.injEq] at h1
          subst h1
          have hsplit : joinPieces (qs ++ [((cl, vl), ([] : List Char))]) ++ ([] : List Char)
              = joinPieces qs ++ cl := by simp [joinPieces]
          have h2 : (joinPieces qs ++ cl).getLast? = some '}' := by
            rw [← List.head?_reverse, List.reverse_append, hcr]
            simp
          rw [hsplit, h2] at hxl
          injection hxl with hxl'
          subst hxl'
          decide

/-- Counterexample to C1 as stated: `12` and `34` are each well-formed JSON
values, yet their concatenation with zero whitespace between them parses as
the single number `1234`, not as two values. -/
theorem C1_counterexample :
    ValChunk ['1', '2'] (JValue.num ['1', '2']) ∧
    ValChunk ['3', '4'] (JValue.num ['3', '4']) ∧
    parse_raw_body (['1', '2'] ++ ['3', '4']) = [JValue.num ['1', '2', '3', '4']] :=
  ⟨rfl, rfl, rfl⟩

/-- Witness instantiating C1 on a concrete two-object stream. -/
theorem C1_multi_value_parse_witness :
    parse_raw_body ([' '] ++ joinPieces
      [((['{', '}'], JValue.obj []), [' ']),
       ((['{', '"', 'a', '"', ':', '1', '}'], JValue.obj [(['a'], JValue.num ['1'])]), [])])
    = [JValue.obj [], JValue.obj [(['a'], JValue.num ['1'])]] := by
  have h := C1_multi_value_parse.2 [' ']
    [((['{', '}'], JValue.obj []), [' ']),
     ((['{', '"', 'a', '"', ':', '1', '}'], JValue.obj [(['a'], JValue.num ['1'])]), [])]
    rfl
    (by
      intro p hp
      simp only [List.mem_cons, List.not_mem_nil, or_false] at hp
      rcases hp with rfl | rfl
      · exact ⟨⟨rfl, rfl, rfl⟩, rfl⟩
      · exact ⟨⟨rfl, rfl, rfl⟩, rfl⟩)
  simpa using h

/-- C3 (amended): a body that is one complete JSON value — in particular a
single JSON array — is decoded by `parse_raw_body` as exactly that one
value, with no flattening of array elements; and the transform then drops a
decoded list outright (it is not a dict), so an array contributes nothing to
any route group. -/
theorem C3_array_one_value :
    (∀ c v, ValChunk c v →
      (∀ x, c.getLast? = some x → pyIsSpace x = false) →
      parse_raw_body c = [v]) ∧
    (∀ (fs : String) (ftl : List String) (md5h : String → String) (st : GroupSt)
      (xs : List PyVal), processValue fs ftl md5h st (PyVal.list xs) = st) := by
  constructor
  · intro c v hcv hlast
    have hdec : rawDecode c = some (v, []) := hcv
    obtain ⟨c0, cs0, hc, h0⟩ := rawDecode_head hdec
    obtain ⟨xl, hxl⟩ : ∃ xl, c.getLast? = some xl := by
      rw [hc]
      have h1 : (c0 :: cs0).getLast?.isSome = true := by
        rw [List.getLast?_isSome]; simp
      exact Option.isSome_iff_exists.mp h1
    have hstrip : pyStrip c = c := by
      have h2 := pyStrip_core (show wsOnly [] = true from rfl)
        (show wsOnly [] = true from rfl) hc h0 hxl (hlast xl hxl)
      simpa using h2
    simp only [parse_raw_body]
    rw [hstrip]
    have hne : ¬(c.isEmpty = true) := by rw [hc]; simp
    rw [if_neg hne]
    subst hc
    simp only [scanLoop]
    rw [List.dropWhile_cons, if_neg (by simp [h0])]
    dsimp only
    rw [hdec]
    rfl
  · intro fs ftl md5h st xs
    exact processValue_skip rfl

/-- Counterexample to C3 as stated: the single-array body `[1, 2]` is
decoded as one `arr` value (not flattened into two values), and the
transform skips a decoded list, so nothing is routed. -/
theorem C3_counterexample :
    parse_raw_body ['[', '1', ',', ' ', '2', ']']
      = [JValue.arr [JValue.num ['1'], JValue.num ['2']]] ∧
    processValue "finance" ["transactions", "accounts"] (fun _ => "") []
      (PyVal.list [PyVal.int 1, PyVal.int 2]) = [] :=
  ⟨rfl, rfl⟩

/-- Witness instantiating C3 on the concrete single-array body. -/
theorem C3_array_one_value_witness :
    parse_raw_body ['[', '1', ',', ' ', '2', ']']
      = [JValue.arr [JValue.num ['1'], JValue.num ['2']]] :=
  C3_array_one_value.1 ['[', '1', ',', ' ', '2', ']']
    (JValue.arr [JValue.num ['1'], JValue.num ['2']]) rfl
    (by intro x hx; injection hx with hx'; subst hx'; decide)
